import Mathlib

/-!
# Verification of the `@layered/dns-records` DNS discovery library

Shallow embedding of the TypeScript source (`index.ts`): the `DnsRecord`
data model, the tab-separated wire format (`sendRecord` / `parseDnsRecord`),
the wildcard detection pass (`detectWildcardRecords`), and the discovery
orchestration of `getAllDnsRecordsStream` / `getAllDnsRecords`, modelled as
a state-transition system over the stream's mutable state.

Modelling conventions:
* JS strings are Lean `String`s; the JS string operations used by the source
  (`split` on a one-character separator, `join('\t')`, `includes`,
  `startsWith`, `endsWith`, `replace(pat, '')`) are defined here on the
  underlying character lists, mirroring their JS semantics.
* JS numbers holding TTL values are modelled as `Nat`; `String(n)` is
  `natToChars` (decimal digits) and `Number(s)` is `jsNat` (non-numeric
  strings are mapped to `0` instead of `NaN`, a case no claim depends on).
* The float arithmetic in `detectWildcardRecords` (`sameData /
  recordTypeLength < percent`, with `percent = 0.15`) is modelled over the
  exact rationals: `a / b` is written `mkRat a b` and `0.15` is
  `mkRat 3 20`.
* Thrown exceptions are modelled as `none` / absent results.
* The static well-known subdomain list (`subdomains.js`, not part of the
  sources) is kept as an explicit parameter everywhere it is used.
-/

/-- DNS Record object, with type, ttl and value — the `DnsRecord` interface
of the source (fields `name`, `type`, `ttl`, `data`). -/
structure DnsRecord where
  name : String
  type : String
  ttl : Nat
  data : String
deriving DecidableEq

/-- Split a character list at every occurrence of the character `c`.
Models JS `String.prototype.split` with a one-character separator string
(the source only ever splits on `'\t'` and `' '`). -/
def splitChar (c : Char) : List Char → List (List Char)
  | [] => [[]]
  | x :: xs =>
    if x = c then [] :: splitChar c xs
    else
      match splitChar c xs with
      | [] => [[x]]
      | h :: t => (x :: h) :: t

/-- Join character lists with a separator. Models JS `Array.prototype.join`. -/
def joinSep (sep : List Char) : List (List Char) → List Char
  | [] => []
  | [x] => x
  | x :: y :: rest => x ++ sep ++ joinSep sep (y :: rest)

/-- Decimal digits of `n`, least significant first; `fuel` bounds the
recursion (any `fuel ≥ n` is exact). -/
def natDigitsRev (fuel n : Nat) : List Char :=
  match fuel with
  | 0 => []
  | fuel + 1 => if n = 0 then [] else Char.ofNat (48 + n % 10) :: natDigitsRev fuel (n / 10)

/-- Decimal representation of a natural number.
Models the implicit JS `String(n)` conversion done by `Array.join` on the
`ttl` field (TTLs are nonnegative integers). -/
def natToChars (n : Nat) : List Char :=
  if n = 0 then ['0'] else (natDigitsRev n n).reverse

/-- Numeric value of a decimal digit character. -/
def digitVal (c : Char) : Nat := c.toNat - 48

/-- Value of a most-significant-first digit string. -/
def digitsVal (l : List Char) : Nat := l.foldl (fun a c => 10 * a + digitVal c) 0

/-- Parse a nonempty all-digit character list as a natural number. -/
def decNat? (l : List Char) : Option Nat :=
  if l ≠ [] ∧ l.all (fun c => c.isDigit) then some (digitsVal l) else none

/-- Models JS `Number(s)` as used on the ttl field of a wire record:
decimal natural strings evaluate to their value; anything else is mapped to
`0` (standing in for `NaN`, which no claim depends on). -/
def jsNat (s : String) : Nat := (decNat? s.data).getD 0

/-- The tab-separated wire line written for a record by `sendRecord`:
`[record.name, record.ttl, 'IN', record.type, record.data].join('\t')`. -/
def encodeRecord (r : DnsRecord) : String :=
  String.mk (joinSep ['\t'] [r.name.data, natToChars r.ttl, ['I', 'N'], r.type.data, r.data.data])

/-- The field-level core of `parseDnsRecord`: require at least five fields
with field 2 equal to `"IN"` (throwing — here `none` — otherwise), and build
the record from fields 0 (name), 1 (ttl), 3 (type) and 4 (data); any further
fields are unused. -/
def parseParts (ps : List String) : Option DnsRecord :=
  if ps.length < 5 ∨ ps[2]? ≠ some "IN" then none
  else some (DnsRecord.mk (ps.getD 0 "") (ps.getD 3 "") (jsNat (ps.getD 1 "")) (ps.getD 4 ""))

/-- Function `parseDnsRecord` of the source: split the line on tabs and parse the
resulting fields. -/
def parseDnsRecord (line : String) : Option DnsRecord :=
  parseParts ((splitChar '\t' line.data).map String.mk)

/-- A record none of whose string fields contains a tab character (the ttl
field, being numeric, never produces one). -/
def tabFree (r : DnsRecord) : Prop :=
  '\t' ∉ r.name.data ∧ '\t' ∉ r.type.data ∧ '\t' ∉ r.data.data

/-- The address-bearing record types considered by `detectWildcardRecords`:
`['A', 'AAAA', 'CNAME']`. -/
def addressTypes : List String := ["A", "AAAA", "CNAME"]

/-- The string group key `${record.type}-${record.data}` used by
`detectWildcardRecords`. -/
def wildKey (r : DnsRecord) : String := r.type ++ "-" ++ r.data

/-- The value `sameDataGroup[key] || 0` built by the first `forEach` of
`detectWildcardRecords`: the number of address-bearing records whose group
key is `key`. -/
def sameDataCount (records : List DnsRecord) (key : String) : Nat :=
  (records.filter (fun r => addressTypes.contains r.type && (wildKey r == key))).length

/-- The count `records.filter(r => r.type === record.type).length`. -/
def typeCount (records : List DnsRecord) (ty : String) : Nat :=
  (records.filter (fun r => r.type == ty)).length

/-- The pass-through condition of `detectWildcardRecords`:
`sameData / recordTypeLength < percent || recordTypeLength <
subdomainsRecords.length / 2`, over exact rationals; `len` is
`subdomainsRecords.length`. -/
def wildPass (len : Nat) (records : List DnsRecord) (percent : ℚ) (record : DnsRecord) : Prop :=
  mkRat (sameDataCount records (wildKey record)) (typeCount records record.type) < percent ∨
  mkRat (typeCount records record.type) 1 < mkRat len 2

instance wildPassDecidable (len : Nat) (records : List DnsRecord) (percent : ℚ)
    (record : DnsRecord) : Decidable (wildPass len records percent record) := by
  unfold wildPass
  infer_instance

/-- One iteration of the second `forEach` of `detectWildcardRecords`: the
state carries the `wildcardsFound` key list and the `recordsWithWildcard`
output accumulator. -/
def wildcardStep (len : Nat) (domain : String) (records : List DnsRecord) (percent : ℚ)
    (st : List String × List DnsRecord) (record : DnsRecord) : List String × List DnsRecord :=
  if addressTypes.contains record.type then
    if wildPass len records percent record then
      (st.1, st.2 ++ [record])
    else if !(st.1.contains (wildKey record)) then
      (st.1 ++ [wildKey record], st.2 ++ [{ record with name := "*." ++ domain }])
    else st
  else (st.1, st.2 ++ [record])

/-- Function `detectWildcardRecords(domain, records, percent = 0.15)` of the source.
`len` is the length of the external `subdomainsRecords` list. -/
def detectWildcardRecords (len : Nat) (domain : String) (records : List DnsRecord)
    (percent : ℚ := mkRat 3 20) : List DnsRecord :=
  (records.foldl (wildcardStep len domain records percent) ([], [])).2

/-- Group membership by `(type, data)`: `pairEq r o` holds when `o` has the
same type and data as `r`. -/
def pairEq (r o : DnsRecord) : Bool := o.type == r.type && o.data == r.data

/-- The wildcard-evidence condition as the claims state it: the record's
`(type, data)` group is at least a `percent` share of the records of its
type, and there are at least `len / 2` records of its type. -/
def wildQualifies (len : Nat) (records : List DnsRecord) (r : DnsRecord) (percent : ℚ) : Prop :=
  percent ≤ mkRat ((records.filter (pairEq r)).length) (typeCount records r.type) ∧
  mkRat len 2 ≤ mkRat (typeCount records r.type) 1

instance wildQualifiesDecidable (len : Nat) (records : List DnsRecord) (r : DnsRecord)
    (percent : ℚ) : Decidable (wildQualifies len records r percent) := by
  unfold wildQualifies
  infer_instance

/-- The dedup identity of a record: the `(name, type, data)` tuple
(`ttl` excluded). -/
def tripleOf (r : DnsRecord) : String × String × String := (r.name, r.type, r.data)

/-- No two list entries share the dedup identity `(name, type, data)`. -/
def nodupTriples (l : List DnsRecord) : Prop := (l.map tripleOf).Nodup

/-- A synthetic record set with 20 `A` records sharing one IP. -/
def wildInput20 : List DnsRecord :=
  [DnsRecord.mk "h1.example.com" "A" 300 "1.2.3.4",
   DnsRecord.mk "h2.example.com" "A" 300 "1.2.3.4",
   DnsRecord.mk "h3.example.com" "A" 300 "1.2.3.4",
   DnsRecord.mk "h4.example.com" "A" 300 "1.2.3.4",
   DnsRecord.mk "h5.example.com" "A" 300 "1.2.3.4",
   DnsRecord.mk "h6.example.com" "A" 300 "1.2.3.4",
   DnsRecord.mk "h7.example.com" "A" 300 "1.2.3.4",
   DnsRecord.mk "h8.example.com" "A" 300 "1.2.3.4",
   DnsRecord.mk "h9.example.com" "A" 300 "1.2.3.4",
   DnsRecord.mk "h10.example.com" "A" 300 "1.2.3.4",
   DnsRecord.mk "h11.example.com" "A" 300 "1.2.3.4",
   DnsRecord.mk "h12.example.com" "A" 300 "1.2.3.4",
   DnsRecord.mk "h13.example.com" "A" 300 "1.2.3.4",
   DnsRecord.mk "h14.example.com" "A" 300 "1.2.3.4",
   DnsRecord.mk "h15.example.com" "A" 300 "1.2.3.4",
   DnsRecord.mk "h16.example.com" "A" 300 "1.2.3.4",
   DnsRecord.mk "h17.example.com" "A" 300 "1.2.3.4",
   DnsRecord.mk "h18.example.com" "A" 300 "1.2.3.4",
   DnsRecord.mk "h19.example.com" "A" 300 "1.2.3.4",
   DnsRecord.mk "h20.example.com" "A" 300 "1.2.3.4"]

/-- Whether `pat` occurs as a contiguous substring. Models JS
`String.prototype.includes` at the character-list level. -/
def jsIncludesChars (pat : List Char) : List Char → Bool
  | [] => pat.isEmpty
  | x :: xs => pat.isPrefixOf (x :: xs) || jsIncludesChars pat xs

/-- JS `s.includes(p)`. -/
def jsIncludes (s p : String) : Bool := jsIncludesChars p.data s.data

/-- JS `s.endsWith(p)`. -/
def jsEndsWith (s p : String) : Bool := p.data.isSuffixOf s.data

/-- JS `s.startsWith(p)`. -/
def jsStartsWith (s p : String) : Bool := p.data.isPrefixOf s.data

/-- Remove the first (leftmost) occurrence of `pat`, if any. Models JS
`s.replace(pat, '')` with a string pattern, which replaces only the first
occurrence. -/
def removeFirstOcc (pat : List Char) : List Char → List Char
  | [] => []
  | x :: xs =>
    if pat.isPrefixOf (x :: xs) then (x :: xs).drop pat.length
    else x :: removeFirstOcc pat xs

/-- JS `s.replace(pat, '')`. -/
def jsReplaceFirst (s pat : String) : String := String.mk (removeFirstOcc pat.data s.data)

/-- JS `s.split(c)` for a one-character separator. -/
def jsSplit (c : Char) (s : String) : List String := (splitChar c s.data).map String.mk

/-- The query groups dispatched by `getAllDnsRecordsStream`: the five
root-level groups issued from the NS callback, and one A query per checked
subdomain candidate. -/
inductive QueryKind where
  | soa
  | a
  | aaaa
  | mx
  | txt
  | sub (label : String)
deriving DecidableEq

/-- The name a query group resolves: the root domain for the five root
groups, `label.domain` for a subdomain check. -/
def queryName (domain : String) : QueryKind → String
  | .sub label => label ++ "." ++ domain
  | _ => domain

/-- The record type a query group asks for. -/
def queryType : QueryKind → String
  | .soa => "SOA"
  | .a => "A"
  | .aaaa => "AAAA"
  | .mx => "MX"
  | .txt => "TXT"
  | .sub _ => "A"

/-- The mutable state captured by the closures of `getAllDnsRecordsStream`:
`recordsHashes`, the written records (`written` stands for the encoded lines
pushed into the stream, in order), `runningChecks`, `subdomainsExtra`,
`subdomainsChecked`, plus bookkeeping for the model: the dispatched query
groups whose callback has not yet run (`pending`), whether `writer.close()`
has run (`closed`), and the history of subdomain A queries issued
(`subQueries`, one entry per `getDnsRecords(label + '.' + domain, 'A')`
call). -/
structure StreamState where
  recordsHashes : List String
  written : List DnsRecord
  runningChecks : Int
  subdomainsExtra : List String
  subdomainsChecked : List String
  pending : List QueryKind
  closed : Bool
  subQueries : List String
deriving DecidableEq

/-- The dedup hash `${record.name}-${record.type}-${record.data}`. -/
def hashOf (r : DnsRecord) : String := r.name ++ "-" ++ r.type ++ "-" ++ r.data

/-- Function `sendRecord` of the source: append the record (its encoded line) to the
stream unless its hash was already seen or its name does not end with the
domain. -/
def sendRecord (domain : String) (st : StreamState) (r : DnsRecord) : StreamState :=
  if !(st.recordsHashes.contains (hashOf r)) && jsEndsWith r.name domain then
    { st with recordsHashes := st.recordsHashes ++ [hashOf r],
              written := st.written ++ [r] }
  else st

/-- Function `addSubdomain` of the source: strip a trailing dot, and if the value
ends with `.domain`, add the label (first occurrence of `.domain` removed)
to the candidate queue unless it is already queued. -/
def addSubdomain (domain : String) (st : StreamState) (value : String) : StreamState :=
  let v := if jsEndsWith value "." then String.mk value.data.dropLast else value
  if jsEndsWith v ("." ++ domain) then
    let sub := jsReplaceFirst v ("." ++ domain)
    if st.subdomainsExtra.contains sub then st
    else { st with subdomainsExtra := st.subdomainsExtra ++ [sub] }
  else st

/-- The `while (subdomainsExtra.length)` drain loop of `reqDone`: shift each
queued candidate; if it is nonempty (JS truthiness) and not yet checked,
mark it checked, bump the counter and dispatch an A query for it. -/
def drainLoop (queue : List String) (st : StreamState) : StreamState :=
  match queue with
  | [] => st
  | sub :: rest =>
    if sub ≠ "" ∧ ¬(st.subdomainsChecked.contains sub = true) then
      drainLoop rest { st with
        runningChecks := st.runningChecks + 1,
        subdomainsChecked := st.subdomainsChecked ++ [sub],
        pending := st.pending ++ [QueryKind.sub sub],
        subQueries := st.subQueries ++ [sub] }
    else drainLoop rest st

/-- Function `reqDone` of the source: decrement the counter; at zero, drain the
candidate queue (dispatching new A queries); if the counter is still zero,
close the stream. -/
def reqDone (st : StreamState) : StreamState :=
  let st1 := { st with runningChecks := st.runningChecks - 1 }
  let st2 := if st1.runningChecks = 0
    then drainLoop st1.subdomainsExtra { st1 with subdomainsExtra := [] }
    else st1
  if st2.runningChecks = 0 then { st2 with closed := true } else st2

/-- Function `sendRecords` of the source: emit every record, then `reqDone`. -/
def sendRecords (domain : String) (st : StreamState) (recs : List DnsRecord) : StreamState :=
  reqDone (recs.foldl (sendRecord domain) st)

/-- The subdomain-inference part of the MX callback: for every record whose
data contains the domain, split on spaces and feed the exchange host (part
1) to `addSubdomain`. -/
def mxScan (domain : String) (st : StreamState) (recs : List DnsRecord) : StreamState :=
  recs.foldl (fun st r =>
    if jsIncludes r.data domain then
      if 1 < (jsSplit ' ' r.data).length then
        addSubdomain domain st ((jsSplit ' ' r.data).getD 1 "")
      else st
    else st) st

/-- The SPF-mechanism scan of the TXT callback, for one space-separated
token. -/
def spfToken (domain : String) (st : StreamState) (spf : String) : StreamState :=
  if jsStartsWith spf "include:" && jsEndsWith spf domain then
    addSubdomain domain st (jsReplaceFirst spf "include:")
  else if jsStartsWith spf "a:" && jsEndsWith spf domain then
    addSubdomain domain st (jsReplaceFirst spf "a:")
  else if jsStartsWith spf "mx:" && jsEndsWith spf domain then
    addSubdomain domain st (jsReplaceFirst spf "mx:")
  else st

/-- The subdomain-inference part of the TXT callback: for every SPF record
mentioning the domain, scan its space-separated mechanisms. -/
def txtScan (domain : String) (st : StreamState) (recs : List DnsRecord) : StreamState :=
  recs.foldl (fun st r =>
    if jsIncludes r.data "v=spf1" && jsIncludes r.data domain then
      (jsSplit ' ' r.data).foldl (spfToken domain) st
    else st) st

/-- The `.then(...)` callback run when a dispatched query group resolves
with `recs`: MX and TXT groups first run their inference scans, then all
groups run `sendRecords`. -/
def runCallback (domain : String) (st : StreamState) (k : QueryKind)
    (recs : List DnsRecord) : StreamState :=
  match k with
  | .mx => sendRecords domain (mxScan domain st recs) recs
  | .txt => sendRecords domain (txtScan domain st recs) recs
  | _ => sendRecords domain st recs

/-- The resolver capability: `(name, type)` to a record list, or `none`
when the underlying promise rejects. -/
def Resolver : Type := String → String → Option (List DnsRecord)

/-- The state of `getAllDnsRecordsStream` just after the closures are set
up: `runningChecks = 5`, queue seeded with the caller-supplied labels
(`unshift`) in front of the static well-known list. -/
def initState (user staticList : List String) : StreamState :=
  { recordsHashes := [], written := [], runningChecks := 5,
    subdomainsExtra := user ++ staticList, subdomainsChecked := [],
    pending := [], closed := false, subQueries := [] }

/-- The bootstrap NS query and its callback: on rejection nothing ever runs
(the stream stays open); on zero records the stream is closed immediately;
otherwise every NS record is emitted (and fed to `addSubdomain` when its
data mentions the domain) and the five root query groups are dispatched. -/
def startRun (res : Resolver) (domain : String) (staticList user : List String) :
    StreamState :=
  let st0 := initState user staticList
  match res domain "NS" with
  | none => st0
  | some [] => { st0 with closed := true }
  | some ns =>
    let st := ns.foldl (fun st r =>
      let st := sendRecord domain st r
      if jsIncludes r.data domain then addSubdomain domain st r.data else st) st0
    { st with pending := [.soa, .a, .aaaa, .mx, .txt] }

/-- One scheduling step of a discovery run: any dispatched query group whose
resolver promise resolves may complete, running its callback. A group whose
resolver call rejects has no step — the source installs no rejection
handler, so its callback never runs. -/
inductive RunStep (res : Resolver) (domain : String) : StreamState → StreamState → Prop where
  | complete (st : StreamState) (k : QueryKind) (recs : List DnsRecord) :
      k ∈ st.pending →
      res (queryName domain k) (queryType k) = some recs →
      RunStep res domain st
        (runCallback domain { st with pending := st.pending.erase k } k recs)

/-- The states a discovery run for `domain` can reach, over all schedules. -/
def Reachable (res : Resolver) (domain : String) (staticList user : List String)
    (st : StreamState) : Prop :=
  Relation.ReflTransGen (RunStep res domain) (startRun res domain staticList user) st

/-- Deterministic executable scheduler: complete the first pending group
whose resolver call resolves. -/
def stepOnce (res : Resolver) (domain : String) (st : StreamState) : Option StreamState :=
  match st.pending.find? (fun k => (res (queryName domain k) (queryType k)).isSome) with
  | none => none
  | some k =>
    match res (queryName domain k) (queryType k) with
    | none => none
    | some recs => some (runCallback domain { st with pending := st.pending.erase k } k recs)

/-- Run up to `fuel` scheduling steps. -/
def runSteps (res : Resolver) (domain : String) : Nat → StreamState → StreamState
  | 0, st => st
  | fuel + 1, st =>
    match stepOnce res domain st with
    | none => st
    | some st' => runSteps res domain fuel st'

/-- The value `getAllDnsRecords` resolves with, computed from the stream
state: parse every written line back (a parse failure rejects the promise —
`none`), then run the wildcard pass. -/
def finalResult (staticList : List String) (domain : String) (st : StreamState) :
    Option (List DnsRecord) :=
  ((st.written.map encodeRecord).mapM parseDnsRecord).map
    (fun records => detectWildcardRecords staticList.length domain records)

/-- Invariant behind C6: the A queries issued for subdomains are exactly the
entries of `subdomainsChecked`, which never holds a label twice. -/
def InvSub (st : StreamState) : Prop :=
  st.subQueries = st.subdomainsChecked ∧ st.subdomainsChecked.Nodup

/-- Invariant behind C3 and C4: the hash list mirrors the written records
(one hash per record, no hash twice), and every written record's name ends
with the domain. -/
def InvSink (domain : String) (st : StreamState) : Prop :=
  (st.written.map hashOf = st.recordsHashes ∧ st.recordsHashes.Nodup) ∧
  (∀ r ∈ st.written, jsEndsWith r.name domain = true)

/-- Invariant behind C1, for a run with a stuck (rejected) group `k`: the
stream is not closed, the counter equals the number of pending groups, and
`k` is still pending. -/
def InvStuck (k : QueryKind) (st : StreamState) : Prop :=
  st.closed = false ∧ st.runningChecks = (st.pending.length : Int) ∧ k ∈ st.pending

/-- The state shape just before a completing group's `reqDone`: one more
count than pending groups (the completing group was removed from `pending`
but not yet counted down). -/
def PreStuck (k : QueryKind) (st : StreamState) : Prop :=
  st.closed = false ∧ st.runningChecks = (st.pending.length : Int) + 1 ∧ k ∈ st.pending

/-- Counting invariant of a bootstrapped run: while the stream is open the
outstanding-work counter equals the number of pending query groups, and once
the stream is closed the counter is zero and nothing is pending. -/
def InvCount (st : StreamState) : Prop :=
  (st.closed = false ∧ st.runningChecks = (st.pending.length : Int)) ∨
  (st.closed = true ∧ st.runningChecks = 0 ∧ st.pending = [])

/-- The state shape just before a completing group's `reqDone`: one more
count than pending groups (the completing group was removed from `pending`
but not yet counted down). -/
def PreCount (st : StreamState) : Prop :=
  st.closed = false ∧ st.runningChecks = (st.pending.length : Int) + 1

/-- Resolver for the spec's MX example scenario: `example.com` has two NS
records, an SOA record, one A record and the MX record
`10 mail.example.com.`; everything else resolves empty. -/
def mxScenarioRes : Resolver := fun name ty =>
  if name = "example.com" ∧ ty = "NS" then
    some [DnsRecord.mk "example.com" "NS" 3600 "ns1.dnshost.net.",
          DnsRecord.mk "example.com" "NS" 3600 "ns2.dnshost.net."]
  else if name = "example.com" ∧ ty = "SOA" then
    some [DnsRecord.mk "example.com" "SOA" 3600
      "ns1.dnshost.net. hostmaster.example.com. 2024 7200 3600 1209600 3600"]
  else if name = "example.com" ∧ ty = "A" then
    some [DnsRecord.mk "example.com" "A" 300 "93.184.216.34"]
  else if name = "example.com" ∧ ty = "MX" then
    some [DnsRecord.mk "example.com" "MX" 3600 "10 mail.example.com."]
  else some []

/-- The MX scenario run, executed to quiescence. -/
def mxScenarioRun : StreamState :=
  runSteps mxScenarioRes "example.com" 20 (startRun mxScenarioRes "example.com" ["www"] [])

/-- Resolver with a rejecting TXT group: NS resolves, TXT rejects, the
other groups resolve empty. -/
def failTxtRes : Resolver := fun name ty =>
  if name = "example.com" ∧ ty = "NS" then
    some [DnsRecord.mk "example.com" "NS" 300 "ns1.dnshost.net."]
  else if name = "example.com" ∧ ty = "TXT" then none
  else some []

/-- The failing-TXT run, executed to quiescence. -/
def failTxtRun : StreamState :=
  runSteps failTxtRes "example.com" 20 (startRun failTxtRes "example.com" [] [])

/-- Resolver with a rejecting subdomain A query: NS resolves, the five root
groups resolve empty, and the A query for `www.example.com` (dispatched
from the drain for the candidate `www`) rejects. -/
def failSubRes : Resolver := fun name ty =>
  if name = "example.com" ∧ ty = "NS" then
    some [DnsRecord.mk "example.com" "NS" 300 "ns1.dnshost.net."]
  else if name = "www.example.com" ∧ ty = "A" then none
  else some []

/-- The failing-subdomain run, executed to quiescence: the five root groups
complete, the drain dispatches the A query for `www.example.com`, and that
query rejects, stranding the counter at 1. -/
def failSubRun : StreamState :=
  runSteps failSubRes "example.com" 10 (startRun failSubRes "example.com" ["www"] [])

/-- Resolver returning an A record named `evilx.com` for domain `x.com`:
`'evilx.com'.endsWith('x.com')` is true, so the dedup sink accepts it. -/
def subtreeRes : Resolver := fun name ty =>
  if name = "x.com" ∧ ty = "NS" then
    some [DnsRecord.mk "x.com" "NS" 300 "ns1.dnshost.net."]
  else if name = "x.com" ∧ ty = "A" then
    some [DnsRecord.mk "evilx.com" "A" 300 "9.9.9.9"]
  else some []

/-- The `evilx.com` run, executed to quiescence (six well-known labels keep
the wildcard pass from touching the lone A record). -/
def subtreeRun : StreamState :=
  runSteps subtreeRes "x.com" 30
    (startRun subtreeRes "x.com" ["www", "mail", "blog", "shop", "dev", "api"] [])

/-- Resolver returning two A records whose data differs only after a tab
character. -/
def dupTabRes : Resolver := fun name ty =>
  if name = "x.com" ∧ ty = "NS" then
    some [DnsRecord.mk "x.com" "NS" 300 "ns1.dnshost.net."]
  else if name = "x.com" ∧ ty = "A" then
    some [DnsRecord.mk "a.x.com" "A" 300 "1.2.3.4\tp",
          DnsRecord.mk "a.x.com" "A" 300 "1.2.3.4\tq"]
  else some []

/-- The tab-data run, executed to quiescence. -/
def dupTabRun : StreamState :=
  runSteps dupTabRes "x.com" 30
    (startRun dupTabRes "x.com" ["www", "mail", "blog", "shop", "dev", "api"] [])

theorem splitChar_ne_nil (c : Char) (l : List Char) : splitChar c l ≠ [] := by
  induction l with
  | nil => simp [splitChar]
  | cons x xs ih =>
    simp only [splitChar]
    split
    · simp
    · split
      · simp
      · simp

theorem splitChar_sep (c : Char) (a b : List Char) :
    splitChar c (a ++ c :: b) = splitChar c a ++ splitChar c b := by
  induction a with
  | nil => simp [splitChar]
  | cons x xs ih =>
    by_cases hx : x = c
    · simp [splitChar, hx, ih]
    · have hne := splitChar_ne_nil c xs
      simp only [List.cons_append, splitChar, hx, if_false, List.append_eq]
      rw [ih]
      cases h : splitChar c xs with
      | nil => exact absurd h hne
      | cons hh tt => simp

theorem splitChar_of_not_mem {c : Char} {l : List Char} (h : c ∉ l) :
    splitChar c l = [l] := by
  induction l with
  | nil => rfl
  | cons x xs ih =>
    simp only [List.mem_cons, not_or] at h
    have hx : ¬x = c := fun hh => h.1 hh.symm
    simp [splitChar, hx, ih h.2]

theorem splitChar_joinSep (c : Char) (parts : List (List Char))
    (hne : parts ≠ []) (hfree : ∀ p ∈ parts, c ∉ p) :
    splitChar c (joinSep [c] parts) = parts := by
  induction parts with
  | nil => exact absurd rfl hne
  | cons p rest ih =>
    cases rest with
    | nil =>
      simp only [joinSep]
      exact splitChar_of_not_mem (hfree p (by simp))
    | cons q rest' =>
      have hstep : p ++ [c] ++ joinSep [c] (q :: rest') =
          p ++ c :: joinSep [c] (q :: rest') := by simp
      rw [joinSep, hstep, splitChar_sep, splitChar_of_not_mem (hfree p (by simp))]
      rw [ih (by simp) (fun x hx => hfree x (by simp [hx]))]
      rfl

theorem digit_isDigit {n : Nat} (h : n < 10) :
    (Char.ofNat (48 + n)).isDigit = true := by
  interval_cases n <;> decide

theorem digitVal_ofNat {n : Nat} (h : n < 10) :
    digitVal (Char.ofNat (48 + n)) = n := by
  interval_cases n <;> decide

theorem natDigitsRev_all_digit (fuel n : Nat) :
    ∀ ch ∈ natDigitsRev fuel n, ch.isDigit = true := by
  induction fuel generalizing n with
  | zero => simp [natDigitsRev]
  | succ fuel ih =>
    intro ch hch
    simp only [natDigitsRev] at hch
    split at hch
    · simp at hch
    · rcases List.mem_cons.mp hch with h | h
      · exact h ▸ digit_isDigit (Nat.mod_lt _ (by norm_num))
      · exact ih _ ch h

theorem natToChars_all_digit (n : Nat) : ∀ ch ∈ natToChars n, ch.isDigit = true := by
  intro ch hch
  unfold natToChars at hch
  split at hch
  · simp at hch; simp [hch]
  · exact natDigitsRev_all_digit n n ch (List.mem_reverse.mp hch)

theorem natToChars_ne_nil (n : Nat) : natToChars n ≠ [] := by
  unfold natToChars
  split
  · simp
  · rename_i hn
    intro h
    rw [List.reverse_eq_nil_iff] at h
    cases hf : n with
    | zero => exact hn hf
    | succ m => rw [hf] at h; simp [natDigitsRev] at h

theorem isDigit_ne_tab {c : Char} (h : c.isDigit = true) : c ≠ '\t' := by
  intro hc
  rw [hc] at h
  exact absurd h (by decide)

theorem digitsVal_append (l : List Char) (c : Char) :
    digitsVal (l ++ [c]) = 10 * digitsVal l + digitVal c := by
  simp [digitsVal, List.foldl_append]

theorem digitsVal_natDigitsRev {fuel n : Nat} (h : n ≤ fuel) :
    digitsVal (natDigitsRev fuel n).reverse = n := by
  induction fuel generalizing n with
  | zero => interval_cases n; simp [natDigitsRev, digitsVal]
  | succ fuel ih =>
    by_cases hn : n = 0
    · simp [natDigitsRev, hn, digitsVal]
    · have hdiv : n / 10 ≤ fuel := by
        have h1 : n / 10 < n := Nat.div_lt_self (Nat.pos_of_ne_zero hn) (by norm_num)
        omega
      rw [natDigitsRev, if_neg hn, List.reverse_cons, digitsVal_append, ih hdiv,
        digitVal_ofNat (Nat.mod_lt _ (by norm_num))]
      omega

theorem digitsVal_natToChars (n : Nat) : digitsVal (natToChars n) = n := by
  unfold natToChars
  split
  · rename_i h; subst h; decide
  · exact digitsVal_natDigitsRev le_rfl

theorem decNat?_natToChars (n : Nat) : decNat? (natToChars n) = some n := by
  rw [decNat?, if_pos ⟨natToChars_ne_nil n, List.all_eq_true.mpr (natToChars_all_digit n)⟩,
    digitsVal_natToChars]

theorem parseParts_none_iff (ps : List String) :
    parseParts ps = none ↔ (ps.length < 5 ∨ ps[2]? ≠ some "IN") := by
  rw [parseParts]
  split
  · rename_i hc; simp [hc]
  · rename_i hc; simp [hc]

theorem parseParts_some {ps : List String} {r : DnsRecord} (h : parseParts ps = some r) :
    r = DnsRecord.mk (ps.getD 0 "") (ps.getD 3 "") (jsNat (ps.getD 1 "")) (ps.getD 4 "") := by
  rw [parseParts] at h
  split at h
  · exact absurd h (by simp)
  · injection h with h'
    exact h'.symm

theorem parseParts_append (ps qs : List String) (h5 : 5 ≤ ps.length)
    (hIN : ps[2]? = some "IN") :
    parseParts (ps ++ qs) = parseParts ps := by
  have hgd : ∀ i : Nat, i < 5 → (ps ++ qs).getD i "" = ps.getD i "" := by
    intro i hi
    rw [List.getD_eq_getElem?_getD, List.getD_eq_getElem?_getD, List.getElem?_append,
      if_pos (by omega)]
  have h2 : (ps ++ qs)[2]? = ps[2]? := by
    rw [List.getElem?_append, if_pos (by omega)]
  rw [parseParts, parseParts, if_neg, if_neg]
  · rw [hgd 0 (by norm_num), hgd 1 (by norm_num), hgd 3 (by norm_num), hgd 4 (by norm_num)]
  · push_neg
    exact ⟨by omega, hIN⟩
  · push_neg
    refine ⟨by simp only [List.length_append]; omega, by rw [h2]; exact hIN⟩

theorem parse_encode_of_tabFree (r : DnsRecord) (h : tabFree r) :
    parseDnsRecord (encodeRecord r) = some r := by
  obtain ⟨h1, h2, h3⟩ := h
  have hsplit : splitChar '\t' (encodeRecord r).data =
      [r.name.data, natToChars r.ttl, ['I', 'N'], r.type.data, r.data.data] := by
    apply splitChar_joinSep
    · simp
    · intro p hp
      simp only [List.mem_cons, List.not_mem_nil, or_false] at hp
      rcases hp with rfl | rfl | rfl | rfl | rfl
      · exact h1
      · intro hmem
        exact absurd rfl (isDigit_ne_tab (natToChars_all_digit r.ttl _ hmem))
      · decide
      · exact h2
      · exact h3
  have hmk : ∀ s : String, String.mk s.data = s := fun _ => rfl
  rw [parseDnsRecord, hsplit]
  simp only [List.map_cons, List.map_nil, hmk]
  rw [parseParts, if_neg (by simp)]
  simp only [List.getD_cons_zero, List.getD_cons_succ]
  rw [jsNat]
  show some (DnsRecord.mk r.name r.type ((decNat? (natToChars r.ttl)).getD 0) r.data) = some r
  rw [decNat?_natToChars]
  rfl

/-- C7 (amended): encoding a record whose string fields contain no tab
character to the tab-separated wire form and parsing it back with
`parseDnsRecord` yields the original record, field for field. -/
theorem wire_roundtrip_of_tabFree (r : DnsRecord) (h : tabFree r) :
    parseDnsRecord (encodeRecord r) = some r :=
  parse_encode_of_tabFree r h

/-- Witness for `wire_roundtrip_of_tabFree` at a concrete record. -/
theorem wire_roundtrip_witness :
    parseDnsRecord (encodeRecord (DnsRecord.mk "mail.x.com" "A" 300 "1.2.3.4")) =
      some (DnsRecord.mk "mail.x.com" "A" 300 "1.2.3.4") :=
  wire_roundtrip_of_tabFree _ (by refine ⟨?_, ?_, ?_⟩ <;> decide)

/-- C7 counterexample: for a record whose `data` contains a tab, the wire
round trip does not return the original record — the parsed `data` is
truncated at the tab. -/
theorem wire_roundtrip_tab_counterexample :
    parseDnsRecord (encodeRecord (DnsRecord.mk "a.x.com" "A" 300 "1.2\t3")) =
      some (DnsRecord.mk "a.x.com" "A" 300 "1.2") ∧
    decide (parseDnsRecord (encodeRecord (DnsRecord.mk "a.x.com" "A" 300 "1.2\t3")) =
      some (DnsRecord.mk "a.x.com" "A" 300 "1.2\t3")) = false := by
  constructor
  · decide
  · decide

/-- C10: `parseDnsRecord` fails exactly when the input has fewer than five
tab-separated fields or the third field is not `"IN"`; on success the record
is built from the first five fields only, so any further tab-separated
fields (for example a tab inside the data) are silently dropped. -/
theorem parseDnsRecord_spec : ∀ line : String,
    (parseDnsRecord line = none ↔
      ((splitChar '\t' line.data).length < 5 ∨
        (((splitChar '\t' line.data).map String.mk)[2]? ≠ some "IN"))) ∧
    (∀ r, parseDnsRecord line = some r →
      r = DnsRecord.mk (((splitChar '\t' line.data).map String.mk).getD 0 "")
            (((splitChar '\t' line.data).map String.mk).getD 3 "")
            (jsNat (((splitChar '\t' line.data).map String.mk).getD 1 ""))
            (((splitChar '\t' line.data).map String.mk).getD 4 "")) ∧
    (∀ extra r, parseDnsRecord line = some r →
      parseDnsRecord (line ++ "\t" ++ extra) = some r) := by
  intro line
  refine ⟨?_, ?_, ?_⟩
  · rw [parseDnsRecord, parseParts_none_iff, List.length_map]
  · intro r hr
    exact parseParts_some hr
  · intro extra r hr
    have hcond : ¬(((splitChar '\t' line.data).map String.mk).length < 5 ∨
        ((splitChar '\t' line.data).map String.mk)[2]? ≠ some "IN") := by
      intro hc
      have hnone := (parseParts_none_iff _).mpr hc
      rw [parseDnsRecord, hnone] at hr
      cases hr
    push_neg at hcond
    obtain ⟨hlen, hIN⟩ := hcond
    have hdata : (line ++ "\t" ++ extra).data = line.data ++ '\t' :: extra.data := by
      rw [String.data_append, String.data_append]
      simp
    rw [parseDnsRecord, hdata, splitChar_sep, List.map_append,
      parseParts_append _ _ hlen hIN]
    exact hr

/-- Witness for `parseDnsRecord_spec`: a trailing sixth field is dropped. -/
theorem parseDnsRecord_spec_witness :
    parseDnsRecord ("a.x.com\t1\tIN\tA\td" ++ "\t" ++ "extra") =
      some (DnsRecord.mk "a.x.com" "A" 1 "d") :=
  (parseDnsRecord_spec "a.x.com\t1\tIN\tA\td").2.2 "extra" _ (by decide)

theorem string_data_inj {s t : String} (h : s.data = t.data) : s = t :=
  congrArg String.mk h

theorem wildKey_data (r : DnsRecord) :
    (wildKey r).data = r.type.data ++ '-' :: r.data.data := by
  rw [wildKey, String.data_append, String.data_append]
  simp

theorem wildKey_inj {o r : DnsRecord} (ho : addressTypes.contains o.type = true)
    (hr : addressTypes.contains r.type = true) (h : wildKey o = wildKey r) :
    o.type = r.type ∧ o.data = r.data := by
  have hd := congrArg String.data h
  rw [wildKey_data, wildKey_data] at hd
  have eA : ("A" : String).data = ['A'] := rfl
  have eB : ("AAAA" : String).data = ['A', 'A', 'A', 'A'] := rfl
  have eC : ("CNAME" : String).data = ['C', 'N', 'A', 'M', 'E'] := rfl
  have ho' : o.type = "A" ∨ o.type = "AAAA" ∨ o.type = "CNAME" := by
    simpa [addressTypes] using ho
  have hr' : r.type = "A" ∨ r.type = "AAAA" ∨ r.type = "CNAME" := by
    simpa [addressTypes] using hr
  rcases ho' with h1 | h1 | h1 <;> rcases hr' with h2 | h2 | h2 <;>
    rw [h1, h2] at hd <;> simp only [eA, eB, eC] at hd <;> simp at hd <;>
    exact ⟨h1.trans h2.symm, string_data_inj hd⟩

theorem pairEq_fields {r o : DnsRecord} (h : pairEq r o = true) :
    o.type = r.type ∧ o.data = r.data := by
  simpa [pairEq] using h

theorem pairEq_of_fields {r o : DnsRecord} (ht : o.type = r.type) (hd : o.data = r.data) :
    pairEq r o = true := by
  simp [pairEq, ht, hd]

theorem sameDataCount_eq_pairCount (records : List DnsRecord) (r : DnsRecord)
    (hr : addressTypes.contains r.type = true) :
    sameDataCount records (wildKey r) = (records.filter (pairEq r)).length := by
  unfold sameDataCount
  congr 1
  apply List.filter_congr
  intro o _
  rw [Bool.eq_iff_iff]
  constructor
  · intro hl
    rw [Bool.and_eq_true] at hl
    obtain ⟨hc, hk⟩ := hl
    have hkey : wildKey o = wildKey r := by simpa using hk
    obtain ⟨ht, hdta⟩ := wildKey_inj hc hr hkey
    exact pairEq_of_fields ht hdta
  · intro hp
    obtain ⟨ht, hdta⟩ := pairEq_fields hp
    rw [Bool.and_eq_true]
    refine ⟨ht ▸ hr, ?_⟩
    have : wildKey o = wildKey r := by rw [wildKey, wildKey, ht, hdta]
    simpa using this

theorem wildPass_congr {len : Nat} {records : List DnsRecord} {percent : ℚ}
    {r x : DnsRecord} (h : pairEq r x = true) :
    wildPass len records percent x ↔ wildPass len records percent r := by
  obtain ⟨ht, hd⟩ := pairEq_fields h
  rw [wildPass, wildPass, wildKey, wildKey, ht, hd]

theorem not_wildPass_iff {len : Nat} {records : List DnsRecord} {percent : ℚ}
    {r : DnsRecord} (hr : addressTypes.contains r.type = true) :
    ¬ wildPass len records percent r ↔ wildQualifies len records r percent := by
  rw [wildPass, wildQualifies, sameDataCount_eq_pairCount records r hr]
  push_neg
  rfl

theorem rename_type (x : DnsRecord) (n : String) :
    ({ x with name := n } : DnsRecord).type = x.type := rfl

theorem pairEq_rename (r x : DnsRecord) (n : String) :
    pairEq r { x with name := n } = pairEq r x := rfl

theorem wildKey_eq_of_pairEq {r x : DnsRecord} (h : pairEq r x = true) :
    wildKey x = wildKey r := by
  obtain ⟨ht, hd⟩ := pairEq_fields h
  rw [wildKey, wildKey, ht, hd]

theorem wildcardStep_wf_mono (len : Nat) (domain : String) (records : List DnsRecord)
    (percent : ℚ) (st : List String × List DnsRecord) (x : DnsRecord) {k : String}
    (hk : k ∈ st.1) : k ∈ (wildcardStep len domain records percent st x).1 := by
  rw [wildcardStep]
  split
  · split
    · exact hk
    · split
      · exact List.mem_append_left _ hk
      · exact hk
  · exact hk

theorem wildcardStep_out_no_match {len : Nat} {domain : String} {records : List DnsRecord}
    {percent : ℚ} {r : DnsRecord} (st : List String × List DnsRecord)
    {x : DnsRecord} (hpe : pairEq r x = false) :
    (wildcardStep len domain records percent st x).2.filter (pairEq r) =
      st.2.filter (pairEq r) := by
  rw [wildcardStep]
  split
  · split
    · simp [List.filter_append, hpe]
    · split
      · simp [List.filter_append, pairEq_rename, hpe]
      · rfl
  · simp [List.filter_append, hpe]

theorem wild_fold_filter_pass (len : Nat) (domain : String) (records : List DnsRecord)
    (percent : ℚ) (r : DnsRecord) (hr : addressTypes.contains r.type = true)
    (hp : wildPass len records percent r) (l : List DnsRecord) :
    ∀ st, (List.foldl (wildcardStep len domain records percent) st l).2.filter (pairEq r) =
      st.2.filter (pairEq r) ++ l.filter (pairEq r) := by
  induction l with
  | nil => intro st; simp
  | cons x xs ih =>
    intro st
    rw [List.foldl_cons, ih, List.filter_cons]
    by_cases hpe : pairEq r x = true
    · have hx : addressTypes.contains x.type = true := by
        obtain ⟨ht, _⟩ := pairEq_fields hpe
        rw [ht]; exact hr
      have hpx : wildPass len records percent x := (wildPass_congr hpe).mpr hp
      rw [wildcardStep, if_pos hx, if_pos hpx]
      simp [List.filter_append, hpe]
    · have hpe' : pairEq r x = false := Bool.eq_false_iff.mpr hpe
      rw [wildcardStep_out_no_match st hpe']
      simp [hpe']

theorem wild_fold_filter_found (len : Nat) (domain : String) (records : List DnsRecord)
    (percent : ℚ) (r : DnsRecord) (hr : addressTypes.contains r.type = true)
    (hnp : ¬ wildPass len records percent r) (l : List DnsRecord) :
    ∀ st, wildKey r ∈ st.1 →
      (List.foldl (wildcardStep len domain records percent) st l).2.filter (pairEq r) =
        st.2.filter (pairEq r) := by
  induction l with
  | nil => intro st _; rfl
  | cons x xs ih =>
    intro st hk
    rw [List.foldl_cons,
      ih _ (wildcardStep_wf_mono len domain records percent st x hk)]
    by_cases hpe : pairEq r x = true
    · have hx : addressTypes.contains x.type = true := by
        obtain ⟨ht, _⟩ := pairEq_fields hpe
        rw [ht]; exact hr
      have hnpx : ¬ wildPass len records percent x := fun hc =>
        hnp ((wildPass_congr hpe).mp hc)
      rw [wildcardStep, if_pos hx, if_neg hnpx,
        if_neg (show ¬(!st.1.contains (wildKey x)) = true by
          simp [wildKey_eq_of_pairEq hpe, hk])]
    · exact wildcardStep_out_no_match st (Bool.eq_false_iff.mpr hpe)

theorem wild_fold_filter_new (len : Nat) (domain : String) (records : List DnsRecord)
    (percent : ℚ) (r : DnsRecord) (hr : addressTypes.contains r.type = true)
    (hnp : ¬ wildPass len records percent r) (l : List DnsRecord) :
    ∀ st, wildKey r ∉ st.1 →
      (List.foldl (wildcardStep len domain records percent) st l).2.filter (pairEq r) =
        st.2.filter (pairEq r) ++
          (match l.filter (pairEq r) with
            | [] => []
            | x :: _ => [{ x with name := "*." ++ domain }]) := by
  induction l with
  | nil => intro st _; simp
  | cons x xs ih =>
    intro st hk
    rw [List.foldl_cons, List.filter_cons]
    by_cases hpe : pairEq r x = true
    · have hx : addressTypes.contains x.type = true := by
        obtain ⟨ht, _⟩ := pairEq_fields hpe
        rw [ht]; exact hr
      have hnpx : ¬ wildPass len records percent x := fun hc =>
        hnp ((wildPass_congr hpe).mp hc)
      have hkey : wildKey x = wildKey r := wildKey_eq_of_pairEq hpe
      rw [wildcardStep, if_pos hx, if_neg hnpx, if_pos (by simp [hkey, hk])]
      rw [wild_fold_filter_found len domain records percent r hr hnp xs _
        (by rw [← hkey]; exact List.mem_append_right _ (List.mem_cons_self _ _))]
      simp [List.filter_append, pairEq_rename, hpe]
    · have hpe' : pairEq r x = false := Bool.eq_false_iff.mpr hpe
      have hkr : wildKey r ∉ (wildcardStep len domain records percent st x).1 := by
        rw [wildcardStep]
        split
        · rename_i hx
          split
          · exact hk
          · split
            · intro hmem
              rcases List.mem_append.mp hmem with h | h
              · exact hk h
              · have hkk : wildKey r = wildKey x := by simpa using h
                obtain ⟨ht, hd⟩ := wildKey_inj hx hr hkk.symm
                rw [pairEq_of_fields ht hd] at hpe'
                exact Bool.noConfusion hpe'
            · exact hk
        · exact hk
      rw [ih _ hkr, wildcardStep_out_no_match st hpe']
      simp [hpe']

theorem detect_filter_of_not_qualifies (len : Nat) (domain : String)
    (records : List DnsRecord) (percent : ℚ) (r : DnsRecord)
    (hr : addressTypes.contains r.type = true)
    (hq : ¬ wildQualifies len records r percent) :
    (detectWildcardRecords len domain records percent).filter (pairEq r) =
      records.filter (pairEq r) := by
  have hp : wildPass len records percent r := by
    by_contra hc
    exact hq ((not_wildPass_iff hr).mp hc)
  rw [detectWildcardRecords,
    wild_fold_filter_pass len domain records percent r hr hp records ([], [])]
  rfl

theorem detect_filter_of_qualifies (len : Nat) (domain : String)
    (records : List DnsRecord) (percent : ℚ) (r : DnsRecord)
    (hr : addressTypes.contains r.type = true) (hmem : r ∈ records)
    (hq : wildQualifies len records r percent) :
    ∃ t, (detectWildcardRecords len domain records percent).filter (pairEq r) =
      [DnsRecord.mk ("*." ++ domain) r.type t r.data] := by
  have hnp : ¬ wildPass len records percent r := (not_wildPass_iff hr).mpr hq
  rw [detectWildcardRecords,
    wild_fold_filter_new len domain records percent r hr hnp records ([], []) (by simp)]
  have hself : r ∈ records.filter (pairEq r) :=
    List.mem_filter.mpr ⟨hmem, pairEq_of_fields rfl rfl⟩
  cases hh : records.filter (pairEq r) with
  | nil => rw [hh] at hself; cases hself
  | cons x0 rest =>
    have hx0 : pairEq r x0 = true :=
      (List.mem_filter.mp (hh ▸ List.mem_cons_self x0 rest)).2
    obtain ⟨ht, hd⟩ := pairEq_fields hx0
    refine ⟨x0.ttl, ?_⟩
    show [({ x0 with name := "*." ++ domain } : DnsRecord)] =
      [DnsRecord.mk ("*." ++ domain) r.type x0.ttl r.data]
    rw [show ({ x0 with name := "*." ++ domain } : DnsRecord) =
      DnsRecord.mk ("*." ++ domain) x0.type x0.ttl x0.data from rfl, ht, hd]

theorem wildcardStep_nonaddr_filter (len : Nat) (domain : String)
    (records : List DnsRecord) (percent : ℚ) (st : List String × List DnsRecord)
    (x : DnsRecord) :
    (wildcardStep len domain records percent st x).2.filter
        (fun o => !(addressTypes.contains o.type)) =
      st.2.filter (fun o => !(addressTypes.contains o.type)) ++
        (if addressTypes.contains x.type = true then [] else [x]) := by
  rw [wildcardStep]
  split
  · rename_i hx
    have hm : x.type ∈ addressTypes := by simpa using hx
    split
    · simp [List.filter_append, hx, hm]
    · split
      · simp [List.filter_append, rename_type, hx, hm]
      · simp [hx, hm]
  · rename_i hx
    have hm : x.type ∉ addressTypes := by simpa using hx
    simp [List.filter_append, hm]

theorem wild_fold_nonaddr (len : Nat) (domain : String) (records : List DnsRecord)
    (percent : ℚ) (l : List DnsRecord) :
    ∀ st, (List.foldl (wildcardStep len domain records percent) st l).2.filter
        (fun o => !(addressTypes.contains o.type)) =
      st.2.filter (fun o => !(addressTypes.contains o.type)) ++
        l.filter (fun o => !(addressTypes.contains o.type)) := by
  induction l with
  | nil => intro st; simp
  | cons x xs ih =>
    intro st
    rw [List.foldl_cons, ih, wildcardStep_nonaddr_filter, List.filter_cons]
    by_cases hx : addressTypes.contains x.type = true
    · have hm : x.type ∈ addressTypes := by simpa using hx
      simp [hx, hm]
    · have hx' : addressTypes.contains x.type = false := Bool.eq_false_iff.mpr hx
      have hm : x.type ∉ addressTypes := by simpa using hx'
      simp [hx', hm]

theorem detect_nonaddr (len : Nat) (domain : String) (records : List DnsRecord)
    (percent : ℚ) :
    (detectWildcardRecords len domain records percent).filter
        (fun o => !(addressTypes.contains o.type)) =
      records.filter (fun o => !(addressTypes.contains o.type)) := by
  rw [detectWildcardRecords, wild_fold_nonaddr len domain records percent records ([], [])]
  rfl

theorem wildcardStep_shape (len : Nat) (domain : String) (records : List DnsRecord)
    (percent : ℚ) (st : List String × List DnsRecord) (x o : DnsRecord)
    (ho : o ∈ (wildcardStep len domain records percent st x).2) :
    o ∈ st.2 ∨ o = x ∨ o = { x with name := "*." ++ domain } := by
  rw [wildcardStep] at ho
  split at ho
  · split at ho
    · rcases List.mem_append.mp ho with h | h
      · exact Or.inl h
      · exact Or.inr (Or.inl (by simpa using h))
    · split at ho
      · rcases List.mem_append.mp ho with h | h
        · exact Or.inl h
        · exact Or.inr (Or.inr (by simpa using h))
      · exact Or.inl ho
  · rcases List.mem_append.mp ho with h | h
    · exact Or.inl h
    · exact Or.inr (Or.inl (by simpa using h))

theorem wild_fold_shape (len : Nat) (domain : String) (records : List DnsRecord)
    (percent : ℚ) (l : List DnsRecord) :
    ∀ st o, o ∈ (List.foldl (wildcardStep len domain records percent) st l).2 →
      o ∈ st.2 ∨ ∃ x ∈ l, (o = x ∨ o = { x with name := "*." ++ domain }) := by
  induction l with
  | nil => intro st o ho; exact Or.inl ho
  | cons x xs ih =>
    intro st o ho
    rw [List.foldl_cons] at ho
    rcases ih _ o ho with h | ⟨y, hy, hcase⟩
    · rcases wildcardStep_shape len domain records percent st x o h with h' | h'
      · exact Or.inl h'
      · exact Or.inr ⟨x, List.mem_cons_self x xs, h'⟩
    · exact Or.inr ⟨y, List.mem_cons_of_mem x hy, hcase⟩

theorem detect_shape (len : Nat) (domain : String) (records : List DnsRecord)
    (percent : ℚ) (o : DnsRecord)
    (ho : o ∈ detectWildcardRecords len domain records percent) :
    ∃ x ∈ records, (o = x ∨ o = { x with name := "*." ++ domain }) := by
  rw [detectWildcardRecords] at ho
  rcases wild_fold_shape len domain records percent records ([], []) o ho with h | h
  · cases h
  · exact h

theorem wildcardStep_out_length (len : Nat) (domain : String) (records : List DnsRecord)
    (percent : ℚ) (st : List String × List DnsRecord) (x : DnsRecord) :
    (wildcardStep len domain records percent st x).2.length ≤ st.2.length + 1 := by
  rw [wildcardStep]
  split
  · split
    · simp
    · split
      · simp
      · simp
  · simp

theorem wild_fold_length (len : Nat) (domain : String) (records : List DnsRecord)
    (percent : ℚ) (l : List DnsRecord) :
    ∀ st, (List.foldl (wildcardStep len domain records percent) st l).2.length ≤
      st.2.length + l.length := by
  induction l with
  | nil => intro st; simp
  | cons x xs ih =>
    intro st
    rw [List.foldl_cons]
    calc (List.foldl (wildcardStep len domain records percent)
          (wildcardStep len domain records percent st x) xs).2.length ≤
        (wildcardStep len domain records percent st x).2.length + xs.length := ih _
      _ ≤ st.2.length + 1 + xs.length := by
          have := wildcardStep_out_length len domain records percent st x
          omega
      _ = st.2.length + (x :: xs).length := by simp; omega

theorem detect_length (len : Nat) (domain : String) (records : List DnsRecord)
    (percent : ℚ) :
    (detectWildcardRecords len domain records percent).length ≤ records.length := by
  rw [detectWildcardRecords]
  have := wild_fold_length len domain records percent records ([], [])
  simpa using this

theorem nodup_map_of_fibers {α β κ : Type} [DecidableEq κ] (l : List α)
    (g : α → β) (f : α → κ) (hdet : ∀ a b, g a = g b → f a = f b)
    (hfib : ∀ k : κ, ((l.filter (fun a => decide (f a = k))).map g).Nodup) :
    (l.map g).Nodup := by
  induction l with
  | nil => simp
  | cons a tl ih =>
    rw [List.map_cons, List.nodup_cons]
    constructor
    · intro hmem
      rw [List.mem_map] at hmem
      obtain ⟨b, hb, hgb⟩ := hmem
      have hfb : f b = f a := hdet b a hgb
      have hfa := hfib (f a)
      rw [List.filter_cons_of_pos (by simp), List.map_cons, List.nodup_cons] at hfa
      apply hfa.1
      rw [List.mem_map]
      exact ⟨b, List.mem_filter.mpr ⟨hb, by simp [hfb]⟩, hgb⟩
    · apply ih
      intro k
      by_cases hk : f a = k
      · have hfa := hfib k
        rw [List.filter_cons_of_pos (by simp [hk]), List.map_cons] at hfa
        exact hfa.of_cons
      · have hfa := hfib k
        rw [List.filter_cons_of_neg (by simp [hk])] at hfa
        exact hfa

theorem pairEq_ext {r x : DnsRecord} (ht : x.type = r.type) (hd : x.data = r.data) :
    pairEq x = pairEq r := by
  funext o
  rw [pairEq, pairEq, ht, hd]

theorem wildQualifies_congr {len : Nat} {records : List DnsRecord} {percent : ℚ}
    {r x : DnsRecord} (ht : x.type = r.type) (hd : x.data = r.data) :
    wildQualifies len records x percent ↔ wildQualifies len records r percent := by
  rw [wildQualifies, wildQualifies, pairEq_ext ht hd, ht]

theorem detect_nodupTriples (len : Nat) (domain : String) (records : List DnsRecord)
    (percent : ℚ) (h : nodupTriples records) :
    nodupTriples (detectWildcardRecords len domain records percent) := by
  apply nodup_map_of_fibers _ tripleOf (fun o => (o.type, o.data))
  · intro a b hg
    have h1 := congrArg (fun t : String × String × String => t.2.1) hg
    have h2 := congrArg (fun t : String × String × String => t.2.2) hg
    simp only [tripleOf] at h1 h2
    simp [Prod.ext_iff, h1, h2]
  · intro k
    obtain ⟨kt, kd⟩ := k
    have hpred : (fun o : DnsRecord => decide ((o.type, o.data) = (kt, kd))) =
        pairEq (DnsRecord.mk "" kt 0 kd) := by
      funext o
      rw [Bool.eq_iff_iff, decide_eq_true_eq]
      constructor
      · intro hx
        have h1 : o.type = kt := congrArg Prod.fst hx
        have h2 : o.data = kd := congrArg (fun p : String × String => p.2) hx
        exact pairEq_of_fields h1 h2
      · intro hx
        obtain ⟨ht, hd⟩ := pairEq_fields hx
        rw [ht, hd]
    rw [hpred]
    by_cases hex : ∃ x ∈ records, pairEq (DnsRecord.mk "" kt 0 kd) x = true
    · obtain ⟨x, hxmem, hxp⟩ := hex
      obtain ⟨hxt, hxd⟩ := pairEq_fields hxp
      rw [← pairEq_ext hxt hxd]
      by_cases haddr : addressTypes.contains x.type = true
      · by_cases hq : wildQualifies len records x percent
        · obtain ⟨t, hfil⟩ :=
            detect_filter_of_qualifies len domain records percent x haddr hxmem hq
          rw [hfil]
          simp
        · rw [detect_filter_of_not_qualifies len domain records percent x haddr hq]
          exact h.sublist (List.Sublist.map tripleOf (List.filter_sublist records))
      · -- the whole `(kt, kd)` fiber consists of non-address pass-through records
        have himp : ∀ o : DnsRecord, pairEq x o = true →
            (!(addressTypes.contains o.type)) = true := by
          intro o hpo
          obtain ⟨hot, _⟩ := pairEq_fields hpo
          have hnm : x.type ∉ addressTypes := by simpa using haddr
          simp [hot, hnm]
        have hsplit2 : ∀ m : List DnsRecord, m.filter (pairEq x) =
            (m.filter (fun o => !(addressTypes.contains o.type))).filter (pairEq x) := by
          intro m
          rw [List.filter_filter]
          apply List.filter_congr
          intro o _
          by_cases hpo : pairEq x o = true
          · rw [hpo, himp o hpo]
            rfl
          · rw [Bool.eq_false_iff.mpr hpo]
            simp
        rw [hsplit2, detect_nonaddr, ← hsplit2]
        exact h.sublist (List.Sublist.map tripleOf (List.filter_sublist records))
    · have hnil : (detectWildcardRecords len domain records percent).filter
          (pairEq (DnsRecord.mk "" kt 0 kd)) = [] := by
        rw [List.filter_eq_nil_iff]
        intro o ho hp
        obtain ⟨x, hxmem, hcase⟩ := detect_shape len domain records percent o ho
        apply hex
        refine ⟨x, hxmem, ?_⟩
        obtain ⟨hot, hod⟩ := pairEq_fields hp
        rcases hcase with rfl | rfl
        · exact hp
        · exact pairEq_of_fields hot hod
      rw [hnil]
      simp

set_option maxRecDepth 40000 in
/-- C2: an address-bearing record's group is wildcard evidence exactly when
`groupSize / total ≥ percent` and `total ≥ len / 2` (`wildQualifies`):
non-qualifying groups pass through unchanged, qualifying groups are replaced
by exactly one synthetic record named `*.domain` per distinct `(type, data)`
group, non-address records pass through unchanged; and on 20 of 20 `A`
records sharing one IP (minimum sample size met, `len = 40`), the output is
exactly one `A` record named `*.example.com` with that IP, with none of the
20 original names surviving. -/
theorem detectWildcardRecords_spec :
    (∀ (len : Nat) (domain : String) (records : List DnsRecord) (percent : ℚ)
      (r : DnsRecord), r ∈ records → addressTypes.contains r.type = true →
      ((¬ wildQualifies len records r percent →
        (detectWildcardRecords len domain records percent).filter (pairEq r) =
          records.filter (pairEq r)) ∧
       (wildQualifies len records r percent →
        ∃ t, (detectWildcardRecords len domain records percent).filter (pairEq r) =
          [DnsRecord.mk ("*." ++ domain) r.type t r.data]))) ∧
    (∀ (len : Nat) (domain : String) (records : List DnsRecord) (percent : ℚ),
      (detectWildcardRecords len domain records percent).filter
          (fun o => !(addressTypes.contains o.type)) =
        records.filter (fun o => !(addressTypes.contains o.type))) ∧
    detectWildcardRecords 40 "example.com" wildInput20 =
      [DnsRecord.mk "*.example.com" "A" 300 "1.2.3.4"] := by
  refine ⟨?_, ?_, ?_⟩
  · intro len domain records percent r hmem hr
    exact ⟨detect_filter_of_not_qualifies len domain records percent r hr,
      detect_filter_of_qualifies len domain records percent r hr hmem⟩
  · intro len domain records percent
    exact detect_nonaddr len domain records percent
  · decide

/-- Witness for `detectWildcardRecords_spec`: a lone `A` record (sample too
small) passes through. -/
theorem detectWildcardRecords_spec_witness :
    (detectWildcardRecords 6 "x.com" [DnsRecord.mk "a.x.com" "A" 300 "9.9.9.9"]
        (mkRat 3 20)).filter (pairEq (DnsRecord.mk "a.x.com" "A" 300 "9.9.9.9")) =
      [DnsRecord.mk "a.x.com" "A" 300 "9.9.9.9"].filter
        (pairEq (DnsRecord.mk "a.x.com" "A" 300 "9.9.9.9")) :=
  ((detectWildcardRecords_spec.1 6 "x.com" [DnsRecord.mk "a.x.com" "A" 300 "9.9.9.9"]
      (mkRat 3 20) (DnsRecord.mk "a.x.com" "A" 300 "9.9.9.9")
      (by decide) (by decide)).1 (by decide))

/-- C9: every record in the output of `detectWildcardRecords` takes its
`ttl`, `type` and `data` from some input record — the pass only ever
rewrites the `name` field — and the output is never longer than the
input. -/
theorem detectWildcardRecords_frame :
    ∀ (len : Nat) (domain : String) (records : List DnsRecord) (percent : ℚ),
      (∀ o ∈ detectWildcardRecords len domain records percent,
        ∃ src ∈ records, o.ttl = src.ttl ∧ o.type = src.type ∧ o.data = src.data) ∧
      (detectWildcardRecords len domain records percent).length ≤ records.length := by
  intro len domain records percent
  refine ⟨?_, detect_length len domain records percent⟩
  intro o ho
  obtain ⟨x, hx, hcase⟩ := detect_shape len domain records percent o ho
  rcases hcase with h' | h'
  · exact ⟨x, hx, by rw [h'], by rw [h'], by rw [h']⟩
  · exact ⟨x, hx, by rw [h'], by rw [h'], by rw [h']⟩

/-- Witness for `detectWildcardRecords_frame` at a concrete input. -/
theorem detectWildcardRecords_frame_witness :
    ∃ src ∈ [DnsRecord.mk "a.x.com" "A" 300 "9.9.9.9"],
      (DnsRecord.mk "a.x.com" "A" 300 "9.9.9.9").ttl = src.ttl ∧
      (DnsRecord.mk "a.x.com" "A" 300 "9.9.9.9").type = src.type ∧
      (DnsRecord.mk "a.x.com" "A" 300 "9.9.9.9").data = src.data :=
  (detectWildcardRecords_frame 6 "x.com" [DnsRecord.mk "a.x.com" "A" 300 "9.9.9.9"]
    (mkRat 3 20)).1 (DnsRecord.mk "a.x.com" "A" 300 "9.9.9.9") (by decide)

theorem reach_ind {res : Resolver} {domain : String} {staticList user : List String}
    (P : StreamState → Prop) (h0 : P (startRun res domain staticList user))
    (hs : ∀ s t, P s → RunStep res domain s t → P t) :
    ∀ st, Reachable res domain staticList user st → P st := by
  intro st h
  induction h with
  | refl => exact h0
  | tail _ hstep ih => exact hs _ _ ih hstep

theorem foldl_preserve {α σ : Type} {f : σ → α → σ} {Q : σ → Prop}
    (h : ∀ s a, Q s → Q (f s a)) : ∀ (l : List α) (s : σ), Q s → Q (List.foldl f s l) := by
  intro l
  induction l with
  | nil => intro s hs; exact hs
  | cons x xs ih => intro s hs; exact ih _ (h s x hs)

theorem invSub_sendRecord (domain : String) (st : StreamState) (r : DnsRecord)
    (h : InvSub st) : InvSub (sendRecord domain st r) := by
  unfold sendRecord
  split
  · exact h
  · exact h

theorem invSub_addSubdomain (domain : String) (st : StreamState) (v : String)
    (h : InvSub st) : InvSub (addSubdomain domain st v) := by
  simp only [addSubdomain]
  split_ifs <;> exact h

theorem invSub_drainLoop : ∀ (queue : List String) (st : StreamState),
    InvSub st → InvSub (drainLoop queue st) := by
  intro queue
  induction queue with
  | nil => intro st h; exact h
  | cons sub rest ih =>
    intro st h
    rw [drainLoop]
    split
    · rename_i hc
      apply ih
      refine ⟨by rw [h.1], ?_⟩
      have hnm : sub ∉ st.subdomainsChecked := by
        intro hmem
        exact hc.2 (by simpa using hmem)
      simp [List.nodup_append, h.2, hnm]
    · exact ih st h

theorem invSub_reqDone (st : StreamState) (h : InvSub st) : InvSub (reqDone st) := by
  simp only [reqDone]
  split_ifs <;> first | exact invSub_drainLoop _ _ h | exact h

theorem invSub_mxScan (domain : String) (recs : List DnsRecord) (st : StreamState)
    (h : InvSub st) : InvSub (mxScan domain st recs) := by
  unfold mxScan
  refine foldl_preserve ?_ recs st h
  intro s r hs
  split
  · split
    · exact invSub_addSubdomain _ _ _ hs
    · exact hs
  · exact hs

theorem invSub_spfToken (domain : String) (st : StreamState) (spf : String)
    (h : InvSub st) : InvSub (spfToken domain st spf) := by
  unfold spfToken
  split
  · exact invSub_addSubdomain _ _ _ h
  · split
    · exact invSub_addSubdomain _ _ _ h
    · split
      · exact invSub_addSubdomain _ _ _ h
      · exact h

theorem invSub_txtScan (domain : String) (recs : List DnsRecord) (st : StreamState)
    (h : InvSub st) : InvSub (txtScan domain st recs) := by
  unfold txtScan
  refine foldl_preserve ?_ recs st h
  intro s r hs
  split
  · exact foldl_preserve (fun s' spf hs' => invSub_spfToken domain s' spf hs') _ _ hs
  · exact hs

theorem invSub_sendRecords (domain : String) (st : StreamState) (recs : List DnsRecord)
    (h : InvSub st) : InvSub (sendRecords domain st recs) := by
  unfold sendRecords
  exact invSub_reqDone _
    (foldl_preserve (fun s r hs => invSub_sendRecord domain s r hs) recs st h)

theorem invSub_runCallback (domain : String) (st : StreamState) (k : QueryKind)
    (recs : List DnsRecord) (h : InvSub st) : InvSub (runCallback domain st k recs) := by
  cases k with
  | mx => exact invSub_sendRecords _ _ _ (invSub_mxScan _ _ _ h)
  | txt => exact invSub_sendRecords _ _ _ (invSub_txtScan _ _ _ h)
  | soa => exact invSub_sendRecords _ _ _ h
  | a => exact invSub_sendRecords _ _ _ h
  | aaaa => exact invSub_sendRecords _ _ _ h
  | sub label => exact invSub_sendRecords _ _ _ h

theorem invSub_startRun (res : Resolver) (domain : String)
    (staticList user : List String) : InvSub (startRun res domain staticList user) := by
  have hinit : InvSub (initState user staticList) := ⟨rfl, List.nodup_nil⟩
  unfold startRun
  cases hres : res domain "NS" with
  | none => exact hinit
  | some ns =>
    cases ns with
    | nil => exact hinit
    | cons r rs =>
      have hfold : InvSub ((r :: rs).foldl (fun st x =>
          let st := sendRecord domain st x
          if jsIncludes x.data domain then addSubdomain domain st x.data else st)
          (initState user staticList)) := by
        refine foldl_preserve ?_ (r :: rs) _ hinit
        intro s x hs
        have h1 := invSub_sendRecord domain s x hs
        split
        · exact invSub_addSubdomain _ _ _ h1
        · exact h1
      exact hfold

theorem invSub_step (res : Resolver) (domain : String) :
    ∀ s t, InvSub s → RunStep res domain s t → InvSub t := by
  intro s t h hstep
  cases hstep with
  | complete k recs hk hres =>
    exact invSub_runCallback domain _ k recs h

theorem append_dot_domain_injective (domain : String) :
    Function.Injective (fun label => label ++ "." ++ domain) := by
  intro a b hab
  have hd := congrArg String.data hab
  rw [String.data_append, String.data_append, String.data_append, String.data_append,
    List.append_assoc, List.append_assoc] at hd
  exact string_data_inj (List.append_cancel_right hd)

/-- C6: in every reachable state of every discovery run, each subdomain
candidate label has been queued (dispatched as an A query) at most once —
`subQueries` records one entry per issued `getDnsRecords(label + '.' +
domain, 'A')` call — so at most one A query is ever issued for any given
`label.domain`. -/
theorem subdomain_queries_nodup :
    ∀ (res : Resolver) (domain : String) (staticList user : List String)
      (st : StreamState), Reachable res domain staticList user st →
      st.subQueries.Nodup ∧
      (st.subQueries.map (fun label => label ++ "." ++ domain)).Nodup := by
  intro res domain staticList user st hreach
  have hinv : InvSub st :=
    reach_ind InvSub (invSub_startRun res domain staticList user)
      (invSub_step res domain) st hreach
  have h1 : st.subQueries.Nodup := by rw [hinv.1]; exact hinv.2
  exact ⟨h1, h1.map (append_dot_domain_injective domain)⟩

theorem addSubdomain_written (domain : String) (st : StreamState) (v : String) :
    (addSubdomain domain st v).written = st.written ∧
    (addSubdomain domain st v).recordsHashes = st.recordsHashes := by
  simp only [addSubdomain]
  split_ifs <;> exact ⟨rfl, rfl⟩

theorem drainLoop_written : ∀ (queue : List String) (st : StreamState),
    (drainLoop queue st).written = st.written ∧
    (drainLoop queue st).recordsHashes = st.recordsHashes := by
  intro queue
  induction queue with
  | nil => intro st; exact ⟨rfl, rfl⟩
  | cons sub rest ih =>
    intro st
    rw [drainLoop]
    split
    · exact ih _
    · exact ih st

theorem reqDone_written (st : StreamState) :
    (reqDone st).written = st.written ∧ (reqDone st).recordsHashes = st.recordsHashes := by
  simp only [reqDone]
  split_ifs <;>
    first
      | exact ⟨(drainLoop_written _ _).1, (drainLoop_written _ _).2⟩
      | exact ⟨rfl, rfl⟩

theorem invSink_of_eq {domain : String} {st st' : StreamState}
    (hw : st'.written = st.written) (hh : st'.recordsHashes = st.recordsHashes)
    (h : InvSink domain st) : InvSink domain st' := by
  refine ⟨⟨?_, ?_⟩, ?_⟩
  · rw [hw, hh]; exact h.1.1
  · rw [hh]; exact h.1.2
  · intro r hr
    exact h.2 r (hw ▸ hr)

theorem invSink_sendRecord (domain : String) (st : StreamState) (r : DnsRecord)
    (h : InvSink domain st) : InvSink domain (sendRecord domain st r) := by
  unfold sendRecord
  split
  · rename_i hc
    rw [Bool.and_eq_true] at hc
    have hnotin : hashOf r ∉ st.recordsHashes := by
      intro hmem
      have h1 := hc.1
      have h2 : st.recordsHashes.contains (hashOf r) = true :=
        List.elem_eq_true_of_mem hmem
      rw [h2] at h1
      exact Bool.noConfusion h1
    refine ⟨⟨?_, ?_⟩, ?_⟩
    · show (st.written ++ [r]).map hashOf = st.recordsHashes ++ [hashOf r]
      rw [List.map_append, h.1.1]
      rfl
    · show (st.recordsHashes ++ [hashOf r]).Nodup
      simp [List.nodup_append, h.1.2, hnotin]
    · intro o ho
      rcases List.mem_append.mp ho with hmem | hmem
      · exact h.2 o hmem
      · rw [List.mem_singleton.mp hmem]
        exact hc.2
  · exact h

theorem invSink_addSubdomain (domain : String) (st : StreamState) (v : String)
    (h : InvSink domain st) : InvSink domain (addSubdomain domain st v) :=
  invSink_of_eq (addSubdomain_written domain st v).1 (addSubdomain_written domain st v).2 h

theorem invSink_reqDone (domain : String) (st : StreamState) (h : InvSink domain st) :
    InvSink domain (reqDone st) :=
  invSink_of_eq (reqDone_written st).1 (reqDone_written st).2 h

theorem invSink_mxScan (domain : String) (recs : List DnsRecord) (st : StreamState)
    (h : InvSink domain st) : InvSink domain (mxScan domain st recs) := by
  unfold mxScan
  refine foldl_preserve ?_ recs st h
  intro s r hs
  split
  · split
    · exact invSink_addSubdomain _ _ _ hs
    · exact hs
  · exact hs

theorem invSink_spfToken (domain : String) (st : StreamState) (spf : String)
    (h : InvSink domain st) : InvSink domain (spfToken domain st spf) := by
  unfold spfToken
  split
  · exact invSink_addSubdomain _ _ _ h
  · split
    · exact invSink_addSubdomain _ _ _ h
    · split
      · exact invSink_addSubdomain _ _ _ h
      · exact h

theorem invSink_txtScan (domain : String) (recs : List DnsRecord) (st : StreamState)
    (h : InvSink domain st) : InvSink domain (txtScan domain st recs) := by
  unfold txtScan
  refine foldl_preserve ?_ recs st h
  intro s r hs
  split
  · exact foldl_preserve (fun s' spf hs' => invSink_spfToken domain s' spf hs') _ _ hs
  · exact hs

theorem invSink_sendRecords (domain : String) (st : StreamState) (recs : List DnsRecord)
    (h : InvSink domain st) : InvSink domain (sendRecords domain st recs) := by
  unfold sendRecords
  exact invSink_reqDone _ _
    (foldl_preserve (fun s r hs => invSink_sendRecord domain s r hs) recs st h)

theorem invSink_runCallback (domain : String) (st : StreamState) (k : QueryKind)
    (recs : List DnsRecord) (h : InvSink domain st) :
    InvSink domain (runCallback domain st k recs) := by
  cases k with
  | mx => exact invSink_sendRecords _ _ _ (invSink_mxScan _ _ _ h)
  | txt => exact invSink_sendRecords _ _ _ (invSink_txtScan _ _ _ h)
  | soa => exact invSink_sendRecords _ _ _ h
  | a => exact invSink_sendRecords _ _ _ h
  | aaaa => exact invSink_sendRecords _ _ _ h
  | sub label => exact invSink_sendRecords _ _ _ h

theorem invSink_startRun (res : Resolver) (domain : String)
    (staticList user : List String) : InvSink domain (startRun res domain staticList user) := by
  have hinit : InvSink domain (initState user staticList) := by
    refine ⟨⟨rfl, List.nodup_nil⟩, ?_⟩
    intro r hr
    cases hr
  unfold startRun
  cases hres : res domain "NS" with
  | none => exact hinit
  | some ns =>
    cases ns with
    | nil => exact hinit
    | cons r rs =>
      refine foldl_preserve ?_ (r :: rs) _ hinit
      intro s x hs
      have h1 := invSink_sendRecord domain s x hs
      split
      · exact invSink_addSubdomain _ _ _ h1
      · exact h1

theorem invSink_step (res : Resolver) (domain : String) :
    ∀ s t, InvSink domain s → RunStep res domain s t → InvSink domain t := by
  intro s t h hstep
  cases hstep with
  | complete k recs hk hres =>
    exact invSink_runCallback domain _ k recs h

theorem jsEndsWith_append (p s : String) : jsEndsWith (p ++ s) s = true := by
  rw [jsEndsWith, List.isSuffixOf_iff_suffix, String.data_append]
  exact List.suffix_append _ _

theorem mapM_parse_encode : ∀ (l : List DnsRecord), (∀ r ∈ l, tabFree r) →
    (l.map encodeRecord).mapM parseDnsRecord = some l := by
  intro l
  induction l with
  | nil => intro _; rfl
  | cons x xs ih =>
    intro h
    rw [List.map_cons, List.mapM_cons, parse_encode_of_tabFree x (h x (by simp)),
      ih (fun r hr => h r (by simp [hr]))]
    rfl

theorem nodupTriples_of_hashes {l : List DnsRecord} (h : (l.map hashOf).Nodup) :
    nodupTriples l := by
  have heq : l.map hashOf =
      (l.map tripleOf).map (fun t => t.1 ++ "-" ++ t.2.1 ++ "-" ++ t.2.2) := by
    rw [List.map_map]
    rfl
  rw [heq] at h
  exact h.of_map

/-- C3 (amended): in every reachable state of every discovery run, every
record emitted on the stream has a name ending with the root domain as a
plain string suffix (the source checks `name.endsWith(domain)`, without
requiring a preceding dot); and when no emitted record's fields contain a
tab, every record in the final `getAllDnsRecords` result also has a name
ending with the domain (synthesized wildcard records are named
`*.domain`). -/
theorem stream_names_end_with_domain :
    ∀ (res : Resolver) (domain : String) (staticList user : List String)
      (st : StreamState), Reachable res domain staticList user st →
      (∀ r ∈ st.written, jsEndsWith r.name domain = true) ∧
      ((∀ r ∈ st.written, tabFree r) →
        ∀ L, finalResult staticList domain st = some L →
          ∀ o ∈ L, jsEndsWith o.name domain = true) := by
  intro res domain staticList user st hreach
  have hinv : InvSink domain st :=
    reach_ind (InvSink domain) (invSink_startRun res domain staticList user)
      (invSink_step res domain) st hreach
  refine ⟨hinv.2, ?_⟩
  intro htab L hL o ho
  rw [finalResult, mapM_parse_encode st.written htab, Option.map_some'] at hL
  have hLeq : L = detectWildcardRecords staticList.length domain st.written := by
    injection hL with h'
    exact h'.symm
  rw [hLeq] at ho
  obtain ⟨x, hx, hcase⟩ := detect_shape _ _ _ _ o ho
  rcases hcase with h' | h'
  · rw [h']
    exact hinv.2 x hx
  · rw [h']
    show jsEndsWith ("*." ++ domain) domain = true
    exact jsEndsWith_append "*." domain

/-- C4 (amended): in every reachable state of every discovery run, no two
emitted records share the dedup identity `(name, type, data)`; when no
emitted record's fields contain a tab, the final `getAllDnsRecords` list
also contains no two records with identical `(name, type, data)`; and a
record that differs from an already-emitted one only in `ttl` is suppressed
by `sendRecord` (ttl is not part of the dedup identity). -/
theorem dedup_no_duplicate_triples :
    ∀ (res : Resolver) (domain : String) (staticList user : List String)
      (st : StreamState), Reachable res domain staticList user st →
      nodupTriples st.written ∧
      ((∀ r ∈ st.written, tabFree r) →
        ∀ L, finalResult staticList domain st = some L → nodupTriples L) ∧
      (∀ r r', r ∈ st.written → r'.name = r.name → r'.type = r.type → r'.data = r.data →
        sendRecord domain st r' = st) := by
  intro res domain staticList user st hreach
  have hinv : InvSink domain st :=
    reach_ind (InvSink domain) (invSink_startRun res domain staticList user)
      (invSink_step res domain) st hreach
  have hn : (st.written.map hashOf).Nodup := by
    rw [hinv.1.1]
    exact hinv.1.2
  have hw : nodupTriples st.written := nodupTriples_of_hashes hn
  refine ⟨hw, ?_, ?_⟩
  · intro htab L hL
    rw [finalResult, mapM_parse_encode st.written htab, Option.map_some'] at hL
    have hLeq : L = detectWildcardRecords staticList.length domain st.written := by
      injection hL with h'
      exact h'.symm
    rw [hLeq]
    exact detect_nodupTriples _ _ _ _ hw
  · intro r r' hr hnm ht hd
    have hhash : hashOf r' = hashOf r := by
      rw [hashOf, hashOf, hnm, ht, hd]
    have hmem : hashOf r' ∈ st.recordsHashes := by
      rw [hhash, ← hinv.1.1]
      exact List.mem_map_of_mem hashOf hr
    have hcont : st.recordsHashes.contains (hashOf r') = true :=
      List.elem_eq_true_of_mem hmem
    rw [sendRecord, if_neg]
    intro hc
    rw [Bool.and_eq_true] at hc
    have h1 := hc.1
    rw [hcont] at h1
    exact Bool.noConfusion h1

theorem sendRecord_fields (domain : String) (st : StreamState) (r : DnsRecord) :
    (sendRecord domain st r).closed = st.closed ∧
    (sendRecord domain st r).runningChecks = st.runningChecks ∧
    (sendRecord domain st r).pending = st.pending := by
  unfold sendRecord
  split
  · exact ⟨rfl, rfl, rfl⟩
  · exact ⟨rfl, rfl, rfl⟩

theorem addSubdomain_fields (domain : String) (st : StreamState) (v : String) :
    (addSubdomain domain st v).closed = st.closed ∧
    (addSubdomain domain st v).runningChecks = st.runningChecks ∧
    (addSubdomain domain st v).pending = st.pending := by
  simp only [addSubdomain]
  split_ifs <;> exact ⟨rfl, rfl, rfl⟩

theorem preStuck_of_fields {k : QueryKind} {st st' : StreamState}
    (hc : st'.closed = st.closed) (hr : st'.runningChecks = st.runningChecks)
    (hp : st'.pending = st.pending) (h : PreStuck k st) : PreStuck k st' := by
  refine ⟨?_, ?_, ?_⟩
  · rw [hc]; exact h.1
  · rw [hr, hp]; exact h.2.1
  · rw [hp]; exact h.2.2

theorem preStuck_sendRecord {k : QueryKind} (domain : String) (st : StreamState)
    (r : DnsRecord) (h : PreStuck k st) : PreStuck k (sendRecord domain st r) :=
  preStuck_of_fields (sendRecord_fields domain st r).1 (sendRecord_fields domain st r).2.1
    (sendRecord_fields domain st r).2.2 h

theorem preStuck_addSubdomain {k : QueryKind} (domain : String) (st : StreamState)
    (v : String) (h : PreStuck k st) : PreStuck k (addSubdomain domain st v) :=
  preStuck_of_fields (addSubdomain_fields domain st v).1 (addSubdomain_fields domain st v).2.1
    (addSubdomain_fields domain st v).2.2 h

theorem preStuck_mxScan {k : QueryKind} (domain : String) (recs : List DnsRecord)
    (st : StreamState) (h : PreStuck k st) : PreStuck k (mxScan domain st recs) := by
  unfold mxScan
  refine foldl_preserve ?_ recs st h
  intro s r hs
  split
  · split
    · exact preStuck_addSubdomain _ _ _ hs
    · exact hs
  · exact hs

theorem preStuck_spfToken {k : QueryKind} (domain : String) (st : StreamState)
    (spf : String) (h : PreStuck k st) : PreStuck k (spfToken domain st spf) := by
  unfold spfToken
  split
  · exact preStuck_addSubdomain _ _ _ h
  · split
    · exact preStuck_addSubdomain _ _ _ h
    · split
      · exact preStuck_addSubdomain _ _ _ h
      · exact h

theorem preStuck_txtScan {k : QueryKind} (domain : String) (recs : List DnsRecord)
    (st : StreamState) (h : PreStuck k st) : PreStuck k (txtScan domain st recs) := by
  unfold txtScan
  refine foldl_preserve ?_ recs st h
  intro s r hs
  split
  · exact foldl_preserve (fun s' spf hs' => preStuck_spfToken domain s' spf hs') _ _ hs
  · exact hs

theorem invStuck_reqDone {k : QueryKind} (st : StreamState) (h : PreStuck k st) :
    InvStuck k (reqDone st) := by
  have hpos : 0 < st.pending.length :=
    List.length_pos.mpr (List.ne_nil_of_mem h.2.2)
  have hne : ¬(st.runningChecks - 1 = 0) := by
    rw [h.2.1]
    omega
  simp only [reqDone]
  rw [if_neg hne, if_neg hne]
  refine ⟨h.1, ?_, h.2.2⟩
  show st.runningChecks - 1 = (st.pending.length : Int)
  rw [h.2.1]
  omega

theorem invStuck_runCallback {k : QueryKind} (domain : String) (st : StreamState)
    (k' : QueryKind) (recs : List DnsRecord) (h : PreStuck k st) :
    InvStuck k (runCallback domain st k' recs) := by
  have hsr : ∀ s : StreamState, PreStuck k s → InvStuck k (sendRecords domain s recs) := by
    intro s hs
    unfold sendRecords
    exact invStuck_reqDone _
      (foldl_preserve (fun a b hb => preStuck_sendRecord domain a b hb) recs s hs)
  cases k' with
  | mx => exact hsr _ (preStuck_mxScan domain recs st h)
  | txt => exact hsr _ (preStuck_txtScan domain recs st h)
  | soa => exact hsr _ h
  | a => exact hsr _ h
  | aaaa => exact hsr _ h
  | sub label => exact hsr _ h

theorem invStuck_step {res : Resolver} {domain : String} {k : QueryKind}
    (hf : res (queryName domain k) (queryType k) = none) :
    ∀ s t, InvStuck k s → RunStep res domain s t → InvStuck k t := by
  intro s t h hstep
  cases hstep with
  | complete k' recs hk' hres =>
    have hne : k ≠ k' := by
      intro he
      rw [← he, hf] at hres
      cases hres
    have hmem : k ∈ s.pending.erase k' := (List.mem_erase_of_ne hne).mpr h.2.2
    have hlen : (s.pending.erase k').length = s.pending.length - 1 :=
      List.length_erase_of_mem hk'
    have hpos : 0 < s.pending.length :=
      List.length_pos.mpr (List.ne_nil_of_mem hk')
    apply invStuck_runCallback
    refine ⟨h.1, ?_, hmem⟩
    show s.runningChecks = (((s.pending.erase k').length : Nat) : Int) + 1
    rw [h.2.1, hlen]
    omega

theorem startRun_invStuck {res : Resolver} {domain : String}
    {staticList user : List String} {k : QueryKind} {ns : List DnsRecord}
    (hns : res domain "NS" = some ns) (hne : ns ≠ [])
    (hk : k ∈ ([.soa, .a, .aaaa, .mx, .txt] : List QueryKind)) :
    InvStuck k (startRun res domain staticList user) := by
  unfold startRun
  rw [hns]
  cases ns with
  | nil => exact absurd rfl hne
  | cons r rs =>
    have hfold : (((r :: rs).foldl (fun st x =>
        let st := sendRecord domain st x
        if jsIncludes x.data domain then addSubdomain domain st x.data else st)
        (initState user staticList)).closed = false ∧
        ((r :: rs).foldl (fun st x =>
        let st := sendRecord domain st x
        if jsIncludes x.data domain then addSubdomain domain st x.data else st)
        (initState user staticList)).runningChecks = 5) := by
      refine @foldl_preserve DnsRecord StreamState _
        (fun s => s.closed = false ∧ s.runningChecks = 5) ?_ (r :: rs)
        (initState user staticList) ⟨rfl, rfl⟩
      intro s x hs
      have h1 := sendRecord_fields domain s x
      split
      · have h2 := addSubdomain_fields domain (sendRecord domain s x) x.data
        exact ⟨by rw [h2.1, h1.1]; exact hs.1, by rw [h2.2.1, h1.2.1]; exact hs.2⟩
      · exact ⟨by rw [h1.1]; exact hs.1, by rw [h1.2.1]; exact hs.2⟩
    refine ⟨hfold.1, ?_, hk⟩
    rw [show ((([.soa, .a, .aaaa, .mx, .txt] : List QueryKind)).length : Int) = 5 by norm_num]
    exact hfold.2

theorem preCount_of_fields {st st' : StreamState}
    (hc : st'.closed = st.closed) (hr : st'.runningChecks = st.runningChecks)
    (hp : st'.pending = st.pending) (h : PreCount st) : PreCount st' := by
  refine ⟨?_, ?_⟩
  · rw [hc]; exact h.1
  · rw [hr, hp]; exact h.2

theorem preCount_sendRecord (domain : String) (st : StreamState) (r : DnsRecord)
    (h : PreCount st) : PreCount (sendRecord domain st r) :=
  preCount_of_fields (sendRecord_fields domain st r).1 (sendRecord_fields domain st r).2.1
    (sendRecord_fields domain st r).2.2 h

theorem preCount_addSubdomain (domain : String) (st : StreamState) (v : String)
    (h : PreCount st) : PreCount (addSubdomain domain st v) :=
  preCount_of_fields (addSubdomain_fields domain st v).1 (addSubdomain_fields domain st v).2.1
    (addSubdomain_fields domain st v).2.2 h

theorem preCount_mxScan (domain : String) (recs : List DnsRecord)
    (st : StreamState) (h : PreCount st) : PreCount (mxScan domain st recs) := by
  unfold mxScan
  refine foldl_preserve ?_ recs st h
  intro s r hs
  split
  · split
    · exact preCount_addSubdomain _ _ _ hs
    · exact hs
  · exact hs

theorem preCount_spfToken (domain : String) (st : StreamState) (spf : String)
    (h : PreCount st) : PreCount (spfToken domain st spf) := by
  unfold spfToken
  split
  · exact preCount_addSubdomain _ _ _ h
  · split
    · exact preCount_addSubdomain _ _ _ h
    · split
      · exact preCount_addSubdomain _ _ _ h
      · exact h

theorem preCount_txtScan (domain : String) (recs : List DnsRecord)
    (st : StreamState) (h : PreCount st) : PreCount (txtScan domain st recs) := by
  unfold txtScan
  refine foldl_preserve ?_ recs st h
  intro s r hs
  split
  · exact foldl_preserve (fun s' spf hs' => preCount_spfToken domain s' spf hs') _ _ hs
  · exact hs

theorem drainLoop_closed : ∀ (queue : List String) (st : StreamState),
    (drainLoop queue st).closed = st.closed := by
  intro queue
  induction queue with
  | nil => intro st; rfl
  | cons sub rest ih =>
    intro st
    rw [drainLoop]
    split
    · rw [ih]
    · exact ih st

theorem drainLoop_diff : ∀ (queue : List String) (st : StreamState),
    (drainLoop queue st).runningChecks - ((drainLoop queue st).pending.length : Int) =
      st.runningChecks - (st.pending.length : Int) := by
  intro queue
  induction queue with
  | nil => intro st; rfl
  | cons sub rest ih =>
    intro st
    rw [drainLoop]
    split
    · rw [ih]
      have hlen : (st.pending ++ [QueryKind.sub sub]).length = st.pending.length + 1 := by
        simp
      show (st.runningChecks + 1) - ((st.pending ++ [QueryKind.sub sub]).length : Int) =
        st.runningChecks - (st.pending.length : Int)
      rw [hlen]
      push_cast
      ring
    · exact ih st

theorem invCount_drain_close (q : List String) (S : StreamState) (hcl : S.closed = false)
    (hcnt : S.runningChecks = (S.pending.length : Int)) :
    InvCount (if (drainLoop q S).runningChecks = 0 then { drainLoop q S with closed := true }
      else drainLoop q S) := by
  have hdiff := drainLoop_diff q S
  have hclosed := drainLoop_closed q S
  have hcnt' : (drainLoop q S).runningChecks = ((drainLoop q S).pending.length : Int) := by
    omega
  split
  · rename_i hz
    refine Or.inr ⟨rfl, hz, ?_⟩
    have h0 : ((drainLoop q S).pending.length : Int) = 0 := by
      rw [← hcnt']
      exact hz
    have hlen : (drainLoop q S).pending.length = 0 := by exact_mod_cast h0
    exact List.length_eq_zero.mp hlen
  · rename_i hz
    refine Or.inl ⟨?_, hcnt'⟩
    rw [hclosed]
    exact hcl

theorem invCount_reqDone (st : StreamState) (h : PreCount st) : InvCount (reqDone st) := by
  obtain ⟨hcl, hcnt⟩ := h
  simp only [reqDone]
  by_cases h0 : st.runningChecks - 1 = 0
  · rw [if_pos h0]
    apply invCount_drain_close
    · exact hcl
    · show st.runningChecks - 1 = (st.pending.length : Int)
      omega
  · rw [if_neg h0, if_neg h0]
    refine Or.inl ⟨hcl, ?_⟩
    show st.runningChecks - 1 = (st.pending.length : Int)
    omega

theorem invCount_runCallback (domain : String) (st : StreamState) (k' : QueryKind)
    (recs : List DnsRecord) (h : PreCount st) : InvCount (runCallback domain st k' recs) := by
  have hsr : ∀ s : StreamState, PreCount s → InvCount (sendRecords domain s recs) := by
    intro s hs
    unfold sendRecords
    exact invCount_reqDone _
      (foldl_preserve (fun a b hb => preCount_sendRecord domain a b hb) recs s hs)
  cases k' with
  | mx => exact hsr _ (preCount_mxScan domain recs st h)
  | txt => exact hsr _ (preCount_txtScan domain recs st h)
  | soa => exact hsr _ h
  | a => exact hsr _ h
  | aaaa => exact hsr _ h
  | sub label => exact hsr _ h

theorem invCount_step (res : Resolver) (domain : String) :
    ∀ s t, InvCount s → RunStep res domain s t → InvCount t := by
  intro s t h hstep
  cases hstep with
  | complete k' recs hk' hres =>
    rcases h with ⟨hcl, hcnt⟩ | ⟨hcl, hcnt, hpe⟩
    · apply invCount_runCallback
      have hlen : (s.pending.erase k').length = s.pending.length - 1 :=
        List.length_erase_of_mem hk'
      have hpos : 0 < s.pending.length :=
        List.length_pos.mpr (List.ne_nil_of_mem hk')
      refine ⟨hcl, ?_⟩
      show s.runningChecks = (((s.pending.erase k').length : Nat) : Int) + 1
      rw [hcnt, hlen]
      omega
    · rw [hpe] at hk'
      exact absurd hk' (List.not_mem_nil k')

theorem startRun_invCount {res : Resolver} {domain : String}
    {staticList user : List String} {ns : List DnsRecord}
    (hns : res domain "NS" = some ns) (hne : ns ≠ []) :
    InvCount (startRun res domain staticList user) := by
  have h := @startRun_invStuck res domain staticList user QueryKind.soa ns hns hne (by simp)
  exact Or.inl ⟨h.1, h.2.1⟩

theorem reachable_invCount {res : Resolver} {domain : String}
    {staticList user : List String} {ns : List DnsRecord}
    (hns : res domain "NS" = some ns) (hne : ns ≠ []) :
    ∀ st, Reachable res domain staticList user st → InvCount st :=
  reach_ind InvCount (startRun_invCount hns hne) (invCount_step res domain)

/-- C1 (amended): in a run whose bootstrap NS query resolves with at least
one record, if the resolver call of any dispatched non-bootstrap query
group rejects — one of the five root groups (SOA, A, AAAA, MX, TXT) or a
subdomain A query issued by the drain — then from any reachable state in
which that group is pending, its callback never runs: the outstanding-work
counter is never decremented for it, it stays pending forever, and no
subsequently reachable state of the run is closed — `getAllDnsRecords`
neither resolves nor rejects. -/
theorem failing_group_never_closes :
    ∀ (res : Resolver) (domain : String) (staticList user : List String)
      (ns : List DnsRecord) (k : QueryKind),
      res domain "NS" = some ns → ns ≠ [] →
      res (queryName domain k) (queryType k) = none →
      ∀ st, Reachable res domain staticList user st → k ∈ st.pending →
        ∀ st', Relation.ReflTransGen (RunStep res domain) st st' →
          st'.closed = false ∧ k ∈ st'.pending := by
  intro res domain staticList user ns k hns hne hf st hreach hk st' hsteps
  have hcount : InvCount st := reachable_invCount hns hne st hreach
  have hbase : InvStuck k st := by
    rcases hcount with ⟨hcl, hcnt⟩ | ⟨_, _, hpe⟩
    · exact ⟨hcl, hcnt, hk⟩
    · rw [hpe] at hk
      exact absurd hk (List.not_mem_nil k)
  have hstuck : InvStuck k st' := by
    induction hsteps with
    | refl => exact hbase
    | tail _ hstep ih => exact invStuck_step hf _ _ ih hstep
  exact ⟨hstuck.1, hstuck.2.2⟩

theorem stepOnce_runStep {res : Resolver} {domain : String} {st st' : StreamState}
    (h : stepOnce res domain st = some st') : RunStep res domain st st' := by
  unfold stepOnce at h
  cases hf : st.pending.find? (fun k => (res (queryName domain k) (queryType k)).isSome) with
  | none => rw [hf] at h; cases h
  | some k =>
    rw [hf] at h
    dsimp only at h
    cases hr : res (queryName domain k) (queryType k) with
    | none => rw [hr] at h; cases h
    | some recs =>
      rw [hr] at h
      dsimp only at h
      injection h with h'
      rw [← h']
      exact RunStep.complete st k recs (List.mem_of_find?_eq_some hf) hr

theorem runSteps_reachable (res : Resolver) (domain : String) :
    ∀ (n : Nat) (st : StreamState),
      Relation.ReflTransGen (RunStep res domain) st (runSteps res domain n st) := by
  intro n
  induction n with
  | zero => intro st; exact Relation.ReflTransGen.refl
  | succ n ih =>
    intro st
    rw [runSteps]
    cases hs : stepOnce res domain st with
    | none => exact Relation.ReflTransGen.refl
    | some st' => exact Relation.ReflTransGen.head (stepOnce_runStep hs) (ih st')

/-- C5: if the bootstrap NS query resolves with zero records, the run
terminates immediately: the stream closes with nothing written, no query
group is dispatched, no scheduling step is possible, and `getAllDnsRecords`
resolves with the empty list. -/
theorem empty_ns_empty_result :
    ∀ (res : Resolver) (domain : String) (staticList user : List String),
      res domain "NS" = some [] →
      (startRun res domain staticList user).closed = true ∧
      (startRun res domain staticList user).written = [] ∧
      (startRun res domain staticList user).pending = [] ∧
      (startRun res domain staticList user).subQueries = [] ∧
      finalResult staticList domain (startRun res domain staticList user) = some [] ∧
      (∀ st', ¬ RunStep res domain (startRun res domain staticList user) st') := by
  intro res domain staticList user h
  have hstart : startRun res domain staticList user =
      { initState user staticList with closed := true } := by
    unfold startRun
    rw [h]
  rw [hstart]
  refine ⟨rfl, rfl, rfl, rfl, rfl, ?_⟩
  intro st' hstep
  cases hstep with
  | complete k recs hk hres => exact absurd hk (List.not_mem_nil k)

/-- Witness for `empty_ns_empty_result` at a concrete resolver. -/
theorem empty_ns_empty_result_witness :
    finalResult [] "x.com"
      (startRun (fun _ _ => some ([] : List DnsRecord)) "x.com" [] []) = some [] :=
  (empty_ns_empty_result (fun _ _ => some ([] : List DnsRecord)) "x.com" [] [] rfl).2.2.2.2.1

/-- C8: in the spec's example scenario (MX record `10 mail.example.com.`),
inference proposes the bare label `mail` (preference number and domain
suffix stripped), an A query for `mail.example.com` is issued, and the run
completes. -/
theorem mx_inference_issues_mail_query :
    ("mail" ∈ mxScenarioRun.subQueries ∧
     QueryKind.sub "mail" ∉ mxScenarioRun.pending ∧
     mxScenarioRun.closed = true ∧
     queryName "example.com" (QueryKind.sub "mail") = "mail.example.com") ∧
    Reachable mxScenarioRes "example.com" ["www"] [] mxScenarioRun :=
  ⟨by decide, runSteps_reachable mxScenarioRes "example.com" 20 _⟩

/-- Witness for `subdomain_queries_nodup` at the MX scenario run. -/
theorem subdomain_queries_nodup_witness :
    mxScenarioRun.subQueries.Nodup ∧
    (mxScenarioRun.subQueries.map (fun label => label ++ "." ++ "example.com")).Nodup :=
  subdomain_queries_nodup mxScenarioRes "example.com" ["www"] [] mxScenarioRun
    (runSteps_reachable mxScenarioRes "example.com" 20 _)

/-- Witness for `stream_names_end_with_domain` at a concrete emitted
record of the MX scenario's bootstrap state. -/
theorem stream_names_witness :
    jsEndsWith (DnsRecord.mk "example.com" "NS" 3600 "ns1.dnshost.net.").name
      "example.com" = true :=
  (stream_names_end_with_domain mxScenarioRes "example.com" ["www"] []
    (startRun mxScenarioRes "example.com" ["www"] []) Relation.ReflTransGen.refl).1
    (DnsRecord.mk "example.com" "NS" 3600 "ns1.dnshost.net.") (by decide)

/-- Witness for `dedup_no_duplicate_triples` at the MX scenario's bootstrap
state. -/
theorem dedup_no_duplicate_triples_witness :
    nodupTriples (startRun mxScenarioRes "example.com" ["www"] []).written :=
  (dedup_no_duplicate_triples mxScenarioRes "example.com" ["www"] []
    (startRun mxScenarioRes "example.com" ["www"] []) Relation.ReflTransGen.refl).1

/-- C1 counterexample: with the TXT group's resolver call rejecting, the
run reaches quiescence (no step possible) with the counter still at 1, the
TXT group still pending and the stream not closed — the failing group was
not treated as a zero-record result and `getAllDnsRecords` does not
resolve. -/
theorem failing_group_counterexample :
    (failTxtRun.closed = false ∧
     failTxtRun.runningChecks = 1 ∧
     failTxtRun.pending = [QueryKind.txt] ∧
     stepOnce failTxtRes "example.com" failTxtRun = none) ∧
    Reachable failTxtRes "example.com" [] [] failTxtRun :=
  ⟨by decide, runSteps_reachable failTxtRes "example.com" 20 _⟩

/-- Witness for `failing_group_never_closes` at the failing-subdomain
scenario: the A query for `www.example.com`, dispatched by the drain,
rejects, and the state that dispatched it never closes. -/
theorem failing_group_never_closes_witness :
    failSubRun.closed = false ∧ QueryKind.sub "www" ∈ failSubRun.pending :=
  failing_group_never_closes failSubRes "example.com" ["www"] []
    [DnsRecord.mk "example.com" "NS" 300 "ns1.dnshost.net."] (QueryKind.sub "www")
    (by decide) (by decide) (by decide)
    failSubRun (runSteps_reachable failSubRes "example.com" 10 _)
    (by decide)
    failSubRun Relation.ReflTransGen.refl

/-- C3 counterexample: the completed run's final record list contains the
record named `evilx.com`, whose name neither equals the root domain
`x.com` nor ends with `.x.com` — the sink's `endsWith(domain)` check does
not enforce the claimed subtree filter. -/
theorem subtree_filter_counterexample :
    (subtreeRun.closed = true ∧
     finalResult ["www", "mail", "blog", "shop", "dev", "api"] "x.com" subtreeRun =
       some [DnsRecord.mk "x.com" "NS" 300 "ns1.dnshost.net.",
             DnsRecord.mk "evilx.com" "A" 300 "9.9.9.9"] ∧
     decide ((DnsRecord.mk "evilx.com" "A" 300 "9.9.9.9").name = "x.com" ∨
       jsEndsWith (DnsRecord.mk "evilx.com" "A" 300 "9.9.9.9").name ("." ++ "x.com") = true)
       = false) ∧
    Reachable subtreeRes "x.com" ["www", "mail", "blog", "shop", "dev", "api"] [] subtreeRun :=
  ⟨by decide, runSteps_reachable subtreeRes "x.com" 30 _⟩

/-- C4 counterexample: the two tab-carrying records have distinct dedup
hashes, so both are emitted; parsing truncates both data fields at the tab,
and the completed run's final list contains the record
`(a.x.com, A, 300, 1.2.3.4)` twice — two records with identical
`(name, type, data)`. -/
theorem dedup_tab_counterexample :
    (dupTabRun.closed = true ∧
     finalResult ["www", "mail", "blog", "shop", "dev", "api"] "x.com" dupTabRun =
       some [DnsRecord.mk "x.com" "NS" 300 "ns1.dnshost.net.",
             DnsRecord.mk "a.x.com" "A" 300 "1.2.3.4",
             DnsRecord.mk "a.x.com" "A" 300 "1.2.3.4"] ∧
     ((finalResult ["www", "mail", "blog", "shop", "dev", "api"] "x.com" dupTabRun).getD
       []).count (DnsRecord.mk "a.x.com" "A" 300 "1.2.3.4") = 2) ∧
    Reachable dupTabRes "x.com" ["www", "mail", "blog", "shop", "dev", "api"] [] dupTabRun :=
  ⟨by decide, runSteps_reachable dupTabRes "x.com" 30 _⟩
